import Mathlib

/-!
# DMFLib: fragmenter and reassembler

A shallow embedding of `src/src/fragmenter.c` and `src/src/reassembler.c`.

Conventions of the embedding

* A `uint8_t *` is the memory seen through it: a function from the byte offset to
  the byte stored there (`Mem`).  A `NULL` pointer argument is `none`.  Distinct
  pointers name disjoint memory.
* `uint8_t`, `uint32_t` and `size_t` values are natural numbers; every place where
  the C code narrows or may wrap carries an explicit `%`.  The width of `size_t`
  differs between the supported boards (16 bits on AVR, 32 bits on ARM/ESP), so it
  is the parameter `w` of the functions whose arithmetic depends on it.
* The structures are passed by value and returned, so the `reassembler == NULL`
  guards of the C functions have no counterpart: a state is always present.
-/

namespace DMFLib

/-- Modelled from the spec: the constant `CHUNK_HEADER_SIZE` of `common.h`, a header
absent from the sources; the spec fixes the chunk header at one byte. -/
def CHUNK_HEADER_SIZE : Nat := 1

/-- Memory seen through a `uint8_t *`: the byte stored at each offset. -/
abbrev Mem := Nat → Nat

/-- The effect of `dst[off] = v`. -/
def store (dst : Mem) (off v : Nat) : Mem :=
  fun i => if i = off then v else dst i

/-- The effect of `memcpy(&dst[doff], &src[soff], n)` on `dst` (disjoint regions). -/
def memcpy (dst : Mem) (doff : Nat) (src : Mem) (soff n : Nat) : Mem :=
  fun i => if doff ≤ i ∧ i < doff + n then src (soff + (i - doff)) else dst i

/-! ## fragmenter.h / fragmenter.c -/

/-- The `fragmenter_t` of `fragmenter.h`: `data` (pointer), `length` (`size_t`),
`position` (`uint32_t`), `index` (`uint8_t`). -/
structure fragmenter_t where
  data : Mem
  length : Nat
  position : Nat
  index : Nat

/-- The function `fragmenter_init`. -/
def fragmenter_init (fragmenter : fragmenter_t) (data : Mem) (length : Nat) : fragmenter_t :=
  { fragmenter with data := data, length := length, position := 0, index := 0 }

/-- The function `fragmenter_has_more`: the `uint8_t` value of `position < length`. -/
def fragmenter_has_more (fragmenter : fragmenter_t) : Nat :=
  if fragmenter.position < fragmenter.length then 1 else 0

/-- The function `fragmenter_next`: the new fragmenter, the output buffer after the call
and the returned `size_t`.  `remaining` and `max_payload_with_header` are `uint32_t`,
`chunk_len` and `index` are `uint8_t`, `payload_size - CHUNK_HEADER_SIZE` is computed in
`size_t` (width `w`) before it is narrowed. -/
def fragmenter_next (w : Nat) (fragmenter : fragmenter_t) (buffer : Mem) (payload_size : Nat) :
    fragmenter_t × Mem × Nat :=
  if fragmenter_has_more fragmenter = 0 then (fragmenter, buffer, 0)
  else
    let remaining := (fragmenter.length - fragmenter.position) % 2 ^ 32
    let max_payload_with_header := ((payload_size + 2 ^ w - CHUNK_HEADER_SIZE) % 2 ^ w) % 2 ^ 32
    let chunk_len :=
      (if remaining > max_payload_with_header then max_payload_with_header else remaining) % 256
    let last := (fragmenter.position + chunk_len) % 2 ^ 32 ≥ fragmenter.length
    let index := if last then 0xFF else fragmenter.index
    let index_after := if last then fragmenter.index else (fragmenter.index + 1) % 256
    let buffer1 := store buffer 0 index
    let buffer2 := memcpy buffer1 CHUNK_HEADER_SIZE fragmenter.data fragmenter.position chunk_len
    ({ fragmenter with
        position := (fragmenter.position + chunk_len) % 2 ^ 32, index := index_after },
      buffer2, chunk_len + CHUNK_HEADER_SIZE)

/-! ## reassembler.h / reassembler.c -/

/-- The enum `ReassemblerReturnCode` of `reassembler.h`, in declaration order
(values 0 to 8). -/
inductive ReassemblerReturnCode where
  | REASSEMBLER_INIT
  | REASSEMBLER_NOT_INIT
  | REASSEMBLER_COMPLETE
  | REASSEMBLER_INCOMPLETE
  | REASSEMBLER_CHUNK_TOO_SMALL
  | REASSEMBLER_BUFFER_OVERFLOW
  | REASSEMBLER_LAST_CHUNK_ALREADY_RECEIVED
  | REASSEMBLER_SEQUENCE_ERROR
  | REASSEMBLER_RESET
  deriving DecidableEq, Repr

open ReassemblerReturnCode

/-- The `reassembler_t` of `reassembler.h`: `data_buffer` (pointer), `buffer_max_size` and
`current_size` (`size_t`), `last_index_received`, `last_chunk_received` and `initialized`
(`uint8_t`; the last two are flags, set when non-zero). -/
structure reassembler_t where
  data_buffer : Mem
  buffer_max_size : Nat
  current_size : Nat
  last_index_received : Nat
  last_chunk_received : Nat
  initialized : Nat

/-- The function `reassembler_init`. -/
def reassembler_init (reassembler : reassembler_t) (data_buffer : Option Mem)
    (buffer_max_size : Nat) : reassembler_t × ReassemblerReturnCode :=
  match data_buffer with
  | none => (reassembler, REASSEMBLER_NOT_INIT)
  | some buf =>
    if buffer_max_size = 0 then (reassembler, REASSEMBLER_NOT_INIT)
    else
      ({ reassembler with
          data_buffer := buf, buffer_max_size := buffer_max_size, current_size := 0,
          last_index_received := 0, last_chunk_received := 0, initialized := 1 },
        REASSEMBLER_INIT)

/-- The function `reassembler_reset`. -/
def reassembler_reset (reassembler : reassembler_t) : reassembler_t × ReassemblerReturnCode :=
  if reassembler.initialized = 0 then (reassembler, REASSEMBLER_NOT_INIT)
  else
    ({ reassembler with current_size := 0, last_index_received := 0, last_chunk_received := 0 },
      REASSEMBLER_RESET)

/-- Lines 80 to 93 of `reassembler_add_chunk`, which both branches of the header test fall
through to: the overflow check, the copy and the final status.  `reassembler` is the state
as the header test left it. -/
def add_chunk_copy (w : Nat) (reassembler : reassembler_t) (chunk_buffer : Mem)
    (payload_len : Nat) : reassembler_t × ReassemblerReturnCode :=
  if (reassembler.current_size + payload_len) % 2 ^ w > reassembler.buffer_max_size then
    (reassembler, REASSEMBLER_BUFFER_OVERFLOW)
  else
    let copied : reassembler_t :=
      { reassembler with
        data_buffer :=
          memcpy reassembler.data_buffer reassembler.current_size chunk_buffer
            CHUNK_HEADER_SIZE payload_len,
        current_size := (reassembler.current_size + payload_len) % 2 ^ w }
    if copied.last_chunk_received ≠ 0 then (copied, REASSEMBLER_COMPLETE)
    else (copied, REASSEMBLER_INCOMPLETE)

/-- The function `reassembler_add_chunk`; `size_t` arithmetic has width `w`. -/
def reassembler_add_chunk (w : Nat) (reassembler : reassembler_t) (chunk_buffer : Option Mem)
    (chunk_len : Nat) : reassembler_t × ReassemblerReturnCode :=
  match chunk_buffer with
  | none => (reassembler, REASSEMBLER_NOT_INIT)
  | some chunk =>
    if reassembler.initialized = 0 then (reassembler, REASSEMBLER_NOT_INIT)
    else if reassembler.last_chunk_received ≠ 0 then
      (reassembler, REASSEMBLER_LAST_CHUNK_ALREADY_RECEIVED)
    else if chunk_len < CHUNK_HEADER_SIZE then (reassembler, REASSEMBLER_CHUNK_TOO_SMALL)
    else
      let index := chunk 0
      let payload_len := chunk_len - CHUNK_HEADER_SIZE
      if index = 0xFF then
        add_chunk_copy w { reassembler with last_chunk_received := 1 } chunk payload_len
      else if index ≠ reassembler.last_index_received then
        (reassembler, REASSEMBLER_SEQUENCE_ERROR)
      else
        add_chunk_copy w
          { reassembler with
            last_index_received := (reassembler.last_index_received + 1) % 256 }
          chunk payload_len

/-! ## The transport driver

The loop every caller runs (spec, section 2): ask the fragmenter for the next chunk and,
when one was produced, hand it to the reassembler. -/

/-- The two ends of a link: the sending fragmenter with its output buffer, the receiving
reassembler, and the statuses `reassembler_add_chunk` has returned so far, oldest first. -/
structure link_t where
  fragmenter : fragmenter_t
  buffer : Mem
  reassembler : reassembler_t
  statuses : List ReassemblerReturnCode

/-- One turn of the driver loop with chunk capacity `C`: `fragmenter_next`, then, unless
it returned 0, `reassembler_add_chunk` on the chunk it wrote. -/
def transfer_step (w C : Nat) (s : link_t) : link_t :=
  let out := fragmenter_next w s.fragmenter s.buffer C
  if out.2.2 = 0 then { s with fragmenter := out.1, buffer := out.2.1 }
  else
    let res := reassembler_add_chunk w s.reassembler (some out.2.1) out.2.2
    { fragmenter := out.1, buffer := out.2.1, reassembler := res.1,
      statuses := s.statuses ++ [res.2] }

/-- The link after `n` turns of the driver loop. -/
def transfer (w C n : Nat) (s : link_t) : link_t :=
  (transfer_step w C)^[n] s

/-- The link before the first turn: `fragmenter_init` on the message and
`reassembler_init` on the destination buffer. -/
def link_init (f0 : fragmenter_t) (out : Mem) (r0 : reassembler_t) (data : Mem) (L : Nat)
    (dest : Mem) (cap : Nat) : link_t :=
  { fragmenter := fragmenter_init f0 data L, buffer := out,
    reassembler := (reassembler_init r0 (some dest) cap).1, statuses := [] }

/-! ## Specification-level definitions -/

/-- The status the ordered checks of the specification (section 4.2) give a chunk, first
match wins: not initialised, terminal chunk already received, chunk shorter than the
header, unexpected index, overflow, and otherwise COMPLETE for the terminal header 255 and
INCOMPLETE for any other. -/
def add_chunk_status_spec (r : reassembler_t) (chunk : Mem) (chunk_len : Nat) :
    ReassemblerReturnCode :=
  if r.initialized = 0 then REASSEMBLER_NOT_INIT
  else if r.last_chunk_received ≠ 0 then REASSEMBLER_LAST_CHUNK_ALREADY_RECEIVED
  else if chunk_len < 1 then REASSEMBLER_CHUNK_TOO_SMALL
  else if chunk 0 ≠ 255 ∧ chunk 0 ≠ r.last_index_received then REASSEMBLER_SEQUENCE_ERROR
  else if r.current_size + (chunk_len - 1) > r.buffer_max_size then REASSEMBLER_BUFFER_OVERFLOW
  else if chunk 0 = 255 then REASSEMBLER_COMPLETE
  else REASSEMBLER_INCOMPLETE

/-- The number of chunks a message of `L` bytes needs at chunk capacity `C`: `L` divided by
the payload capacity `C - 1`, rounded up. -/
def chunk_count (L C : Nat) : Nat := (L + (C - 1) - 1) / (C - 1)

/-- Successive calls of `reassembler_add_chunk` on a list of chunks (buffer and length):
the final state and the statuses in call order. -/
def add_chunks (w : Nat) (r : reassembler_t) : List (Mem × Nat) → reassembler_t × List ReassemblerReturnCode
  | [] => (r, [])
  | c :: rest =>
    let res := reassembler_add_chunk w r (some c.1) c.2
    let out := add_chunks w res.1 rest
    (out.1, res.2 :: out.2)

/-- The header bytes of the chunks of a call sequence that were accepted as regular chunks
(the calls that returned INCOMPLETE), in call order. -/
def accepted_headers (w : Nat) (r : reassembler_t) (chunks : List (Mem × Nat)) : List Nat :=
  ((chunks.zip (add_chunks w r chunks).2).filter
    (fun cs => decide (cs.2 = REASSEMBLER_INCOMPLETE))).map (fun cs => cs.1.1 0)

/-- The number of full payloads of chunk capacity `C` that fit a destination of `cap`
bytes: `cap` divided by the payload capacity `C - 1`, rounded down. -/
def chunks_that_fit (cap C : Nat) : Nat := cap / (C - 1)

/-- The link is in step: `j` regular chunks have been sent and accepted, they carried the
first `pos` bytes of the message `data` (of length `L`), the reassembler (capacity `cap`,
destination initially `dest`) expects index `j` and has answered INCOMPLETE `j` times. -/
def Synced (data : Mem) (L cap : Nat) (dest : Mem) (pos j : Nat) (s : link_t) : Prop :=
  s.fragmenter.data = data ∧ s.fragmenter.length = L ∧ s.fragmenter.position = pos ∧
  s.fragmenter.index = j ∧ s.reassembler.buffer_max_size = cap ∧
  s.reassembler.current_size = pos ∧ s.reassembler.last_index_received = j ∧
  s.reassembler.last_chunk_received = 0 ∧ s.reassembler.initialized = 1 ∧
  (∀ i, i < pos → s.reassembler.data_buffer i = data i) ∧
  (∀ i, pos ≤ i → s.reassembler.data_buffer i = dest i) ∧
  s.statuses = List.replicate j REASSEMBLER_INCOMPLETE

/-! ## Concrete inputs -/

/-- Memory holding the listed bytes from offset 0 on, and zeroes after them. -/
def bytes (l : List Nat) : Mem := fun i => l.getD i 0

/-- Memory that is all zeroes. -/
def zero_mem : Mem := fun _ => 0

/-- A message whose byte at offset `i` is `i` modulo 256. -/
def ramp : Mem := fun i => i % 256

/-- A chunk buffer with header byte `h` followed by bytes that are all `v`. -/
def filled_chunk (h v : Nat) : Mem := fun i => if i = 0 then h else v

/-- A fragmenter structure before `fragmenter_init`. -/
def fragmenter_blank : fragmenter_t := ⟨zero_mem, 0, 0, 0⟩

/-- A reassembler structure before `reassembler_init` (zeroed, so not initialised). -/
def reassembler_blank : reassembler_t := ⟨zero_mem, 0, 0, 0, 0, 0⟩

/-- A reassembler freshly initialised on a zeroed destination buffer of `cap` bytes. -/
def reassembler_fresh (cap : Nat) : reassembler_t :=
  (reassembler_init reassembler_blank (some zero_mem) cap).1

/-- The link that sends the first `L` bytes of `ramp` to a zeroed destination buffer of
`cap` bytes. -/
def ramp_link (L cap : Nat) : link_t :=
  link_init fragmenter_blank zero_mem reassembler_blank ramp L zero_mem cap

/-! ## The sending side alone -/

/-- A sender: the fragmenter with its output buffer, and the chunks `fragmenter_next` has
produced so far, oldest first, each as the list of the bytes it wrote (header byte first;
the length of the list is the value the call returned). -/
structure emitter_t where
  fragmenter : fragmenter_t
  buffer : Mem
  chunks : List (List Nat)

/-- One call of `fragmenter_next` with chunk capacity `C`; a non-zero return value adds
the bytes written to the output buffer to the list of chunks. -/
def emit_step (w C : Nat) (s : emitter_t) : emitter_t :=
  let out := fragmenter_next w s.fragmenter s.buffer C
  if out.2.2 = 0 then { s with fragmenter := out.1, buffer := out.2.1 }
  else
    { fragmenter := out.1, buffer := out.2.1,
      chunks := s.chunks ++ [(List.range out.2.2).map out.2.1] }

/-- The sender after `n` calls of `fragmenter_next`. -/
def emit (w C n : Nat) (s : emitter_t) : emitter_t :=
  (emit_step w C)^[n] s

/-- The sender before the first call: `fragmenter_init` on the message. -/
def emit_init (f0 : fragmenter_t) (out : Mem) (data : Mem) (L : Nat) : emitter_t :=
  { fragmenter := fragmenter_init f0 data L, buffer := out, chunks := [] }

/-- The bytes of regular chunk number `i` (from 0) of the message `data` at chunk capacity
`C`: the index `i` as an 8-bit value, then the `C - 1` message bytes from offset
`i * (C - 1)` on. -/
def regular_chunk (data : Mem) (C i : Nat) : List Nat :=
  (i % 256) :: (List.range (C - 1)).map (fun t => data (i * (C - 1) + t))

/-- The bytes of the terminal chunk that follows `j` regular chunks of a message of `L`
bytes: the header 255, then the message bytes from offset `j * (C - 1)` to the end. -/
def terminal_chunk (data : Mem) (L C j : Nat) : List Nat :=
  255 :: (List.range (L - j * (C - 1))).map (fun t => data (j * (C - 1) + t))

/-- The sender has produced `j` regular chunks of the message `data` of `L` bytes. -/
def Emitted (data : Mem) (L C j : Nat) (s : emitter_t) : Prop :=
  s.fragmenter.data = data ∧ s.fragmenter.length = L ∧
  s.fragmenter.position = j * (C - 1) ∧ s.fragmenter.index = j % 256 ∧
  s.chunks = (List.range j).map (regular_chunk data C)

/-- The header bytes of the chunks a sender has produced, oldest first. -/
def headers (s : emitter_t) : List Nat := s.chunks.map (fun c => c.headD 0)

/-- The sender has produced `j` chunks of a message of `L` bytes, none of them terminal:
they carry the headers `0, 1, ...` (as 8-bit values) and at most `j * (C - 1)` bytes are
consumed. -/
def Headed (L C j : Nat) (s : emitter_t) : Prop :=
  s.fragmenter.length = L ∧ s.fragmenter.position ≤ j * (C - 1) ∧
  s.fragmenter.index = j % 256 ∧ headers s = (List.range j).map (fun i => i % 256)

/-! ## Auxiliary lemmas -/

theorem header_sub (w C : Nat) (hC : 1 ≤ C) (hCw : C < 2 ^ w) :
    (C + 2 ^ w - 1) % 2 ^ w = C - 1 := by
  have h1 : C + 2 ^ w - 1 = (C - 1) + 2 ^ w := by omega
  rw [h1, Nat.add_mod_right]
  exact Nat.mod_eq_of_lt (by omega)

theorem fragmenter_next_regular (w C : Nat) (f : fragmenter_t) (buf : Mem)
    (hC : 2 ≤ C) (hC256 : C ≤ 256) (hCw : C < 2 ^ w) (hL : f.length < 2 ^ 32)
    (h : f.position + (C - 1) < f.length) :
    fragmenter_next w f buf C =
      ({ f with position := f.position + (C - 1), index := (f.index + 1) % 256 },
        memcpy (store buf 0 f.index) 1 f.data f.position (C - 1), C) := by
  have hsub := header_sub w C (by omega) hCw
  have hL32 : f.length < 4294967296 := by simpa using hL
  have hmore : f.position < f.length := by omega
  have hrem : (f.length - f.position) % 4294967296 = f.length - f.position := by omega
  have hmax : (C - 1) % 4294967296 = C - 1 := by omega
  have hgt : C - 1 < f.length - f.position := by omega
  have hlen : (C - 1) % 256 = C - 1 := by omega
  have hpos : (f.position + (C - 1)) % 4294967296 = f.position + (C - 1) := by omega
  have hnl : ¬ f.length ≤ f.position + (C - 1) := by omega
  have hC1 : C - 1 + 1 = C := by omega
  simp [fragmenter_next, fragmenter_has_more, hmore, hsub, hrem, hmax, hgt,
    hlen, hpos, hnl, CHUNK_HEADER_SIZE, hC1]

theorem fragmenter_next_last (w C : Nat) (f : fragmenter_t) (buf : Mem)
    (hC : 2 ≤ C) (hC256 : C ≤ 256) (hCw : C < 2 ^ w) (hL : f.length < 2 ^ 32)
    (hmore : f.position < f.length) (h : f.length ≤ f.position + (C - 1)) :
    fragmenter_next w f buf C =
      ({ f with position := f.length },
        memcpy (store buf 0 255) 1 f.data f.position (f.length - f.position),
        f.length - f.position + 1) := by
  have hsub := header_sub w C (by omega) hCw
  have hL32 : f.length < 4294967296 := by simpa using hL
  have hrem : (f.length - f.position) % 4294967296 = f.length - f.position := by omega
  have hmax : (C - 1) % 4294967296 = C - 1 := by omega
  have hgt : ¬ C - 1 < f.length - f.position := by omega
  have hlen : (f.length - f.position) % 256 = f.length - f.position := by omega
  have hsum : f.position + (f.length - f.position) = f.length := by omega
  have hpos : f.length % 4294967296 = f.length := by omega
  simp [fragmenter_next, fragmenter_has_more, hmore, hsub, hrem, hmax, hgt,
    hlen, hsum, hpos, CHUNK_HEADER_SIZE]

theorem fragmenter_next_drained (w C : Nat) (f : fragmenter_t) (buf : Mem)
    (h : fragmenter_has_more f = 0) : fragmenter_next w f buf C = (f, buf, 0) := by
  simp [fragmenter_next, h]

theorem memcpy_in (dst : Mem) (doff : Nat) (src : Mem) (soff n i : Nat)
    (h1 : doff ≤ i) (h2 : i < doff + n) :
    memcpy dst doff src soff n i = src (soff + (i - doff)) := by
  simp [memcpy, h1, h2]

theorem memcpy_out (dst : Mem) (doff : Nat) (src : Mem) (soff n i : Nat)
    (h : i < doff ∨ doff + n ≤ i) :
    memcpy dst doff src soff n i = dst i := by
  have hn : ¬ (doff ≤ i ∧ i < doff + n) := by omega
  simp [memcpy, hn]

theorem chunk_header (buf data : Mem) (h pos n : Nat) :
    memcpy (store buf 0 h) 1 data pos n 0 = h := by
  simp [memcpy, store]

theorem chunk_payload (buf data : Mem) (h pos n t : Nat) (ht : t < n) :
    memcpy (store buf 0 h) 1 data pos n (1 + t) = data (pos + t) := by
  have h1 : 1 + t < 1 + n := by omega
  simp [memcpy, h1]

theorem add_chunk_accept_regular (w : Nat) (r : reassembler_t) (chunk : Mem) (chunk_len : Nat)
    (hinit : r.initialized ≠ 0) (hflag : r.last_chunk_received = 0) (hlen : 1 ≤ chunk_len)
    (hidx : chunk 0 = r.last_index_received) (hne : chunk 0 ≠ 255)
    (hfit : r.current_size + (chunk_len - 1) ≤ r.buffer_max_size)
    (hmax : r.buffer_max_size < 2 ^ w) :
    reassembler_add_chunk w r (some chunk) chunk_len =
      ({ r with
          last_index_received := (r.last_index_received + 1) % 256,
          data_buffer := memcpy r.data_buffer r.current_size chunk 1 (chunk_len - 1),
          current_size := r.current_size + (chunk_len - 1) },
        REASSEMBLER_INCOMPLETE) := by
  have hmod : (r.current_size + (chunk_len - 1)) % 2 ^ w = r.current_size + (chunk_len - 1) :=
    Nat.mod_eq_of_lt (by omega)
  have hnl : ¬ chunk_len < 1 := by omega
  have hno : ¬ r.buffer_max_size < r.current_size + (chunk_len - 1) := by omega
  simp [reassembler_add_chunk, add_chunk_copy, hinit, hflag, hnl, hidx.symm, hne, hmod, hno,
    CHUNK_HEADER_SIZE]

theorem add_chunk_accept_last (w : Nat) (r : reassembler_t) (chunk : Mem) (chunk_len : Nat)
    (hinit : r.initialized ≠ 0) (hflag : r.last_chunk_received = 0) (hlen : 1 ≤ chunk_len)
    (hidx : chunk 0 = 255)
    (hfit : r.current_size + (chunk_len - 1) ≤ r.buffer_max_size)
    (hmax : r.buffer_max_size < 2 ^ w) :
    reassembler_add_chunk w r (some chunk) chunk_len =
      ({ r with
          last_chunk_received := 1,
          data_buffer := memcpy r.data_buffer r.current_size chunk 1 (chunk_len - 1),
          current_size := r.current_size + (chunk_len - 1) },
        REASSEMBLER_COMPLETE) := by
  have hmod : (r.current_size + (chunk_len - 1)) % 2 ^ w = r.current_size + (chunk_len - 1) :=
    Nat.mod_eq_of_lt (by omega)
  have hnl : ¬ chunk_len < 1 := by omega
  have hno : ¬ r.buffer_max_size < r.current_size + (chunk_len - 1) := by omega
  simp [reassembler_add_chunk, add_chunk_copy, hinit, hflag, hnl, hidx, hmod, hno,
    CHUNK_HEADER_SIZE]

theorem add_chunk_overflow (w : Nat) (r : reassembler_t) (chunk : Mem) (chunk_len : Nat)
    (hinit : r.initialized ≠ 0) (hflag : r.last_chunk_received = 0) (hlen : 1 ≤ chunk_len)
    (hidx : chunk 0 = 255 ∨ chunk 0 = r.last_index_received)
    (hbig : r.buffer_max_size < (r.current_size + (chunk_len - 1)) % 2 ^ w) :
    (reassembler_add_chunk w r (some chunk) chunk_len).2 = REASSEMBLER_BUFFER_OVERFLOW ∧
    (reassembler_add_chunk w r (some chunk) chunk_len).1.current_size = r.current_size ∧
    (reassembler_add_chunk w r (some chunk) chunk_len).1.data_buffer = r.data_buffer ∧
    (reassembler_add_chunk w r (some chunk) chunk_len).1.buffer_max_size = r.buffer_max_size := by
  have hnl : ¬ chunk_len < 1 := by omega
  by_cases h255 : chunk 0 = 255
  · simp [reassembler_add_chunk, add_chunk_copy, hinit, hflag, hnl, h255, hbig,
      CHUNK_HEADER_SIZE]
  · have hi : chunk 0 = r.last_index_received := by
      rcases hidx with h | h
      · exact absurd h h255
      · exact h
    simp [reassembler_add_chunk, add_chunk_copy, hinit, hflag, hnl, h255, hi.symm, hbig,
      CHUNK_HEADER_SIZE]

theorem synced_init (f0 : fragmenter_t) (out : Mem) (r0 : reassembler_t) (data : Mem)
    (L : Nat) (dest : Mem) (cap : Nat) (hcap : cap ≠ 0) :
    Synced data L cap dest 0 0 (link_init f0 out r0 data L dest cap) := by
  simp [Synced, link_init, fragmenter_init, reassembler_init, hcap]

theorem synced_step (w C : Nat) (data : Mem) (L cap : Nat) (dest : Mem) (pos j : Nat)
    (s : link_t) (hC : 2 ≤ C) (hC256 : C ≤ 256) (hCw : C < 2 ^ w) (hL : L < 2 ^ 32)
    (hcapw : cap < 2 ^ w) (hs : Synced data L cap dest pos j s)
    (hpos : pos + (C - 1) < L) (hj : j < 255) (hfit : pos + (C - 1) ≤ cap) :
    Synced data L cap dest (pos + (C - 1)) (j + 1) (transfer_step w C s) := by
  obtain ⟨hd, hlen, hp, hi, hmax, hcur, hidx, hflag, hinit, hlow, hhigh, hst⟩ := hs
  have hnext := fragmenter_next_regular w C s.fragmenter s.buffer hC hC256 hCw
    (by rw [hlen]; exact hL) (by rw [hp, hlen]; exact hpos)
  have hC0 : C ≠ 0 := by omega
  have hadd := add_chunk_accept_regular w s.reassembler
    (memcpy (store s.buffer 0 s.fragmenter.index) 1 s.fragmenter.data s.fragmenter.position
      (C - 1)) C (by omega) hflag (by omega)
    (by rw [chunk_header, hi, hidx]) (by rw [chunk_header, hi]; omega)
    (by rw [hcur, hmax]; exact hfit) (by rw [hmax]; exact hcapw)
  have hj1 : (j + 1) % 256 = j + 1 := Nat.mod_eq_of_lt (by omega)
  simp only [transfer_step, hnext, hC0, if_false, hadd]
  refine ⟨hd, hlen, by simp [hp], by simp [hi, hj1], hmax, by simp [hcur],
    by simp [hidx, hj1], hflag, hinit, ?_, ?_, ?_⟩
  · intro i hlt
    dsimp only
    by_cases hge : pos ≤ i
    · rw [memcpy_in s.reassembler.data_buffer s.reassembler.current_size _ 1 (C - 1) i
        (by omega) (by omega), chunk_payload _ _ _ _ (C - 1) (i - s.reassembler.current_size)
        (by omega), hd, hp, hcur]
      congr 1; omega
    · rw [memcpy_out s.reassembler.data_buffer s.reassembler.current_size _ 1 (C - 1) i
        (by omega)]
      exact hlow i (by omega)
  · intro i hge
    dsimp only
    rw [memcpy_out s.reassembler.data_buffer s.reassembler.current_size _ 1 (C - 1) i
      (by omega)]
    exact hhigh i (by omega)
  · simp [hst, List.replicate_succ']

theorem transfer_step_eq (w C : Nat) (s : link_t) (f1 : fragmenter_t) (buf1 : Mem) (n : Nat)
    (r1 : reassembler_t) (st : ReassemblerReturnCode)
    (hnext : fragmenter_next w s.fragmenter s.buffer C = (f1, buf1, n)) (hn : n ≠ 0)
    (hadd : reassembler_add_chunk w s.reassembler (some buf1) n = (r1, st)) :
    transfer_step w C s =
      { fragmenter := f1, buffer := buf1, reassembler := r1, statuses := s.statuses ++ [st] } := by
  simp [transfer_step, hnext, hn, hadd]

theorem transfer_succ (w C n : Nat) (s : link_t) :
    transfer w C (n + 1) s = transfer_step w C (transfer w C n s) := by
  simp only [transfer]
  exact Function.iterate_succ_apply' _ _ _

theorem transfer_add (w C m n : Nat) (s : link_t) :
    transfer w C (m + n) s = transfer w C m (transfer w C n s) := by
  simp only [transfer]
  exact Function.iterate_add_apply _ _ _ _

theorem transfer_step_drained (w C : Nat) (s : link_t)
    (h : fragmenter_has_more s.fragmenter = 0) : transfer_step w C s = s := by
  simp [transfer_step, fragmenter_next_drained w C s.fragmenter s.buffer h]

theorem transfer_drained (w C n : Nat) (s : link_t)
    (h : fragmenter_has_more s.fragmenter = 0) : transfer w C n s = s := by
  simp only [transfer]
  exact Function.iterate_fixed (transfer_step_drained w C s h) n

theorem synced_transfer (w C : Nat) (data : Mem) (L cap : Nat) (dest : Mem) (s : link_t)
    (hC : 2 ≤ C) (hC256 : C ≤ 256) (hCw : C < 2 ^ w) (hL : L < 2 ^ 32)
    (hcapw : cap < 2 ^ w) (hs : Synced data L cap dest 0 0 s) :
    ∀ j, j ≤ 255 → j * (C - 1) < L → j * (C - 1) ≤ cap →
      Synced data L cap dest (j * (C - 1)) j (transfer w C j s) := by
  intro j
  induction j with
  | zero =>
    intro _ _ _
    simpa [transfer] using hs
  | succ j ih =>
    intro hj hlt hle
    have hmul : (j + 1) * (C - 1) = j * (C - 1) + (C - 1) := Nat.succ_mul j (C - 1)
    rw [hmul] at hlt hle ⊢
    rw [transfer_succ]
    exact synced_step w C data L cap dest (j * (C - 1)) j _ hC hC256 hCw hL hcapw
      (ih (by omega) (by omega) (by omega)) hlt (by omega) hle

theorem synced_last_step (w C : Nat) (data : Mem) (L cap : Nat) (dest : Mem) (pos j : Nat)
    (s : link_t) (hC : 2 ≤ C) (hC256 : C ≤ 256) (hCw : C < 2 ^ w) (hL : L < 2 ^ 32)
    (hcapw : cap < 2 ^ w) (hs : Synced data L cap dest pos j s)
    (hmore : pos < L) (hlast : L ≤ pos + (C - 1)) (hfit : L ≤ cap) :
    (transfer_step w C s).statuses =
        List.replicate j REASSEMBLER_INCOMPLETE ++ [REASSEMBLER_COMPLETE] ∧
      (transfer_step w C s).reassembler.current_size = L ∧
      (∀ i, i < L → (transfer_step w C s).reassembler.data_buffer i = data i) ∧
      (∀ i, L ≤ i → (transfer_step w C s).reassembler.data_buffer i = dest i) ∧
      fragmenter_has_more (transfer_step w C s).fragmenter = 0 := by
  obtain ⟨hd, hlen, hp, hi, hmax, hcur, hidx, hflag, hinit, hlow, hhigh, hst⟩ := hs
  have hnext := fragmenter_next_last w C s.fragmenter s.buffer hC hC256 hCw
    (by rw [hlen]; exact hL) (by rw [hp, hlen]; exact hmore) (by rw [hp, hlen]; exact hlast)
  have hn0 : s.fragmenter.length - s.fragmenter.position + 1 ≠ 0 := by omega
  have hadd := add_chunk_accept_last w s.reassembler
    (memcpy (store s.buffer 0 255) 1 s.fragmenter.data s.fragmenter.position
      (s.fragmenter.length - s.fragmenter.position))
    (s.fragmenter.length - s.fragmenter.position + 1) (by omega) hflag (by omega)
    (chunk_header _ _ _ _ _) (by omega) (by rw [hmax]; exact hcapw)
  rw [transfer_step_eq w C s _ _ _ _ _ hnext hn0 hadd]
  refine ⟨by simp only [hst], by dsimp only; omega, ?_, ?_, by simp [fragmenter_has_more]⟩
  · intro i hlt
    dsimp only
    by_cases hge : pos ≤ i
    · rw [memcpy_in s.reassembler.data_buffer s.reassembler.current_size _ 1 _ i
        (by omega) (by omega), chunk_payload _ _ _ _ _ (i - s.reassembler.current_size)
        (by omega), hd, hp, hcur]
      congr 1; omega
    · rw [memcpy_out s.reassembler.data_buffer s.reassembler.current_size _ 1 _ i
        (by omega)]
      exact hlow i (by omega)
  · intro i hge
    dsimp only
    rw [memcpy_out s.reassembler.data_buffer s.reassembler.current_size _ 1 _ i
      (by omega)]
    exact hhigh i (by omega)

theorem synced_collision_step (w C : Nat) (data : Mem) (L cap : Nat) (dest : Mem) (pos : Nat)
    (s : link_t) (hC : 2 ≤ C) (hC256 : C ≤ 256) (hCw : C < 2 ^ w) (hL : L < 2 ^ 32)
    (hcapw : cap < 2 ^ w) (hs : Synced data L cap dest pos 255 s)
    (hpos : pos + (C - 1) < L) (hfit : pos + (C - 1) ≤ cap) :
    (transfer_step w C s).statuses =
        List.replicate 255 REASSEMBLER_INCOMPLETE ++ [REASSEMBLER_COMPLETE] ∧
      fragmenter_has_more (transfer_step w C s).fragmenter = 1 ∧
      (transfer_step w C s).reassembler.last_chunk_received = 1 ∧
      (transfer_step w C s).reassembler.initialized = 1 ∧
      (transfer_step w C s).reassembler.current_size = pos + (C - 1) ∧
      (transfer_step w C s).fragmenter.length = L ∧
      (transfer_step w C s).fragmenter.position = pos + (C - 1) := by
  obtain ⟨hd, hlen, hp, hi, hmax, hcur, hidx, hflag, hinit, hlow, hhigh, hst⟩ := hs
  have hnext := fragmenter_next_regular w C s.fragmenter s.buffer hC hC256 hCw
    (by rw [hlen]; exact hL) (by rw [hp, hlen]; exact hpos)
  have hC0 : C ≠ 0 := by omega
  have hadd := add_chunk_accept_last w s.reassembler
    (memcpy (store s.buffer 0 s.fragmenter.index) 1 s.fragmenter.data s.fragmenter.position
      (C - 1)) C (by omega) hflag (by omega)
    (by rw [chunk_header, hi]) (by rw [hcur, hmax]; exact hfit) (by rw [hmax]; exact hcapw)
  rw [transfer_step_eq w C s _ _ _ _ _ hnext hC0 hadd]
  refine ⟨by simp only [hst], ?_, rfl, hinit, by simp only [hcur], hlen, by simp only [hp]⟩
  have : s.fragmenter.position + (C - 1) < s.fragmenter.length := by rw [hp, hlen]; exact hpos
  simp [fragmenter_has_more, this]

theorem synced_overflow_step (w C : Nat) (data : Mem) (L cap : Nat) (dest : Mem) (pos j : Nat)
    (s : link_t) (hC : 2 ≤ C) (hC256 : C ≤ 256) (hCw : C < 2 ^ w) (hL : L < 2 ^ 32)
    (hLw : L < 2 ^ w) (hs : Synced data L cap dest pos j s)
    (hmore : pos < L) (hcapL : cap < L) (hbig : cap < pos + (C - 1)) :
    (transfer_step w C s).statuses =
        List.replicate j REASSEMBLER_INCOMPLETE ++ [REASSEMBLER_BUFFER_OVERFLOW] ∧
      (transfer_step w C s).reassembler.current_size = s.reassembler.current_size ∧
      (transfer_step w C s).reassembler.data_buffer = s.reassembler.data_buffer ∧
      cap < pos + ((fragmenter_next w s.fragmenter s.buffer C).2.2 - 1) := by
  obtain ⟨hd, hlen, hp, hi, hmax, hcur, hidx, hflag, hinit, hlow, hhigh, hst⟩ := hs
  by_cases hlast : L ≤ pos + (C - 1)
  · have hnext := fragmenter_next_last w C s.fragmenter s.buffer hC hC256 hCw
      (by rw [hlen]; exact hL) (by rw [hp, hlen]; exact hmore)
      (by rw [hp, hlen]; exact hlast)
    have hn0 : s.fragmenter.length - s.fragmenter.position + 1 ≠ 0 := by omega
    have hsum : s.reassembler.current_size +
        (s.fragmenter.length - s.fragmenter.position + 1 - 1) = L := by omega
    have hov := add_chunk_overflow w s.reassembler
      (memcpy (store s.buffer 0 255) 1 s.fragmenter.data s.fragmenter.position
        (s.fragmenter.length - s.fragmenter.position))
      (s.fragmenter.length - s.fragmenter.position + 1) (by omega) hflag (by omega)
      (Or.inl (chunk_header _ _ _ _ _))
      (by rw [hsum, Nat.mod_eq_of_lt hLw, hmax]; exact hcapL)
    rw [transfer_step_eq w C s _ _ _ _ _ hnext hn0 Prod.mk.eta.symm, hnext]
    refine ⟨by simp only [hst, hov.1], hov.2.1, hov.2.2.1, by dsimp only; omega⟩
  · have hnext := fragmenter_next_regular w C s.fragmenter s.buffer hC hC256 hCw
      (by rw [hlen]; exact hL) (by rw [hp, hlen]; omega)
    have hC0 : C ≠ 0 := by omega
    have hov := add_chunk_overflow w s.reassembler
      (memcpy (store s.buffer 0 s.fragmenter.index) 1 s.fragmenter.data s.fragmenter.position
        (C - 1)) C (by omega) hflag (by omega)
      (Or.inr (by rw [chunk_header, hi, hidx]))
      (by rw [hcur, Nat.mod_eq_of_lt (by omega), hmax]; exact hbig)
    rw [transfer_step_eq w C s _ _ _ _ _ hnext hC0 Prod.mk.eta.symm, hnext]
    refine ⟨by simp only [hst, hov.1], hov.2.1, hov.2.2.1, hbig⟩

theorem add_chunk_after_last (w : Nat) (r : reassembler_t) (chunk : Option Mem)
    (chunk_len : Nat) (hinit : r.initialized ≠ 0) (hflag : r.last_chunk_received ≠ 0) :
    (reassembler_add_chunk w r chunk chunk_len).2 = REASSEMBLER_LAST_CHUNK_ALREADY_RECEIVED ∨
      (reassembler_add_chunk w r chunk chunk_len).2 = REASSEMBLER_NOT_INIT := by
  cases chunk with
  | none => right; rfl
  | some c => left; simp [reassembler_add_chunk, hinit, hflag]

theorem add_chunk_some_after_last (w : Nat) (r : reassembler_t) (chunk : Mem)
    (chunk_len : Nat) (hinit : r.initialized ≠ 0) (hflag : r.last_chunk_received ≠ 0) :
    reassembler_add_chunk w r (some chunk) chunk_len =
      (r, REASSEMBLER_LAST_CHUNK_ALREADY_RECEIVED) := by
  simp [reassembler_add_chunk, hinit, hflag]

theorem transfer_step_after_complete (w C : Nat) (s : link_t) (hC : 2 ≤ C) (hC256 : C ≤ 256)
    (hCw : C < 2 ^ w) (hL : s.fragmenter.length < 2 ^ 32)
    (hmore : s.fragmenter.position < s.fragmenter.length)
    (hlast : s.fragmenter.length ≤ s.fragmenter.position + (C - 1))
    (hinit : s.reassembler.initialized ≠ 0) (hflag : s.reassembler.last_chunk_received ≠ 0) :
    (transfer_step w C s).statuses =
        s.statuses ++ [REASSEMBLER_LAST_CHUNK_ALREADY_RECEIVED] ∧
      (transfer_step w C s).reassembler = s.reassembler ∧
      fragmenter_has_more (transfer_step w C s).fragmenter = 0 := by
  have hnext := fragmenter_next_last w C s.fragmenter s.buffer hC hC256 hCw hL hmore hlast
  have hn0 : s.fragmenter.length - s.fragmenter.position + 1 ≠ 0 := by omega
  rw [transfer_step_eq w C s _ _ _ _ _ hnext hn0
    (add_chunk_some_after_last w s.reassembler _ _ hinit hflag)]
  exact ⟨rfl, rfl, by simp [fragmenter_has_more]⟩

theorem chunk_count_pos (L C : Nat) (hC : 2 ≤ C) (hL : 1 ≤ L) :
    (L - 1) / (C - 1) * (C - 1) < L ∧ L ≤ (L - 1) / (C - 1) * (C - 1) + (C - 1) ∧
      chunk_count L C = (L - 1) / (C - 1) + 1 := by
  have hp : 0 < C - 1 := by omega
  have h1 := Nat.div_add_mod (L - 1) (C - 1)
  have h2 := Nat.mod_lt (L - 1) hp
  have h3 : (C - 1) * ((L - 1) / (C - 1)) = (L - 1) / (C - 1) * (C - 1) := Nat.mul_comm _ _
  refine ⟨by omega, by omega, ?_⟩
  have h4 : L + (C - 1) - 1 = (L - 1) + (C - 1) := by omega
  rw [chunk_count, h4, Nat.add_div_right _ hp]

theorem chunk_count_le (L C : Nat) (hL : 1 ≤ L) (hcount : L ≤ 256 * (C - 1)) :
    (L - 1) / (C - 1) ≤ 255 := by
  have hp : 0 < C - 1 := by omega
  have h : (L - 1) / (C - 1) < 256 := by
    rw [Nat.div_lt_iff_lt_mul hp]
    omega
  omega

theorem link_roundtrip (w C L cap : Nat) (data dest out : Mem) (f0 : fragmenter_t)
    (r0 : reassembler_t) (hC : 2 ≤ C) (hC256 : C ≤ 256) (hCw : C < 2 ^ w)
    (hcount : L ≤ 256 * (C - 1)) (hL : 1 ≤ L) (hcap : L ≤ cap) (hcapw : cap < 2 ^ w)
    (n : Nat) (hn : chunk_count L C ≤ n) :
    (transfer w C n (link_init f0 out r0 data L dest cap)).statuses =
        List.replicate (chunk_count L C - 1) REASSEMBLER_INCOMPLETE ++ [REASSEMBLER_COMPLETE] ∧
      (transfer w C n (link_init f0 out r0 data L dest cap)).reassembler.current_size = L ∧
      (∀ i, i < L →
        (transfer w C n (link_init f0 out r0 data L dest cap)).reassembler.data_buffer i
          = data i) ∧
      (∀ i, L ≤ i →
        (transfer w C n (link_init f0 out r0 data L dest cap)).reassembler.data_buffer i
          = dest i) ∧
      fragmenter_has_more (transfer w C n (link_init f0 out r0 data L dest cap)).fragmenter
        = 0 := by
  obtain ⟨hlt, hle, hk⟩ := chunk_count_pos L C hC hL
  have hj := chunk_count_le L C hL hcount
  have hL32 : L < 2 ^ 32 := by
    have : (2 : Nat) ^ 32 = 4294967296 := by norm_num
    omega
  have hs0 := synced_init f0 out r0 data L dest cap (by omega)
  have hsj := synced_transfer w C data L cap dest _ hC hC256 hCw hL32 hcapw hs0
    ((L - 1) / (C - 1)) hj hlt (by omega)
  have hfin := synced_last_step w C data L cap dest _ _ _ hC hC256 hCw hL32 hcapw hsj hlt hle
    hcap
  rw [← transfer_succ] at hfin
  have hsplit : n = (n - ((L - 1) / (C - 1) + 1)) + ((L - 1) / (C - 1) + 1) := by omega
  have hstay : transfer w C n (link_init f0 out r0 data L dest cap) =
      transfer w C ((L - 1) / (C - 1) + 1) (link_init f0 out r0 data L dest cap) := by
    rw [hsplit, transfer_add, transfer_drained _ _ _ _ hfin.2.2.2.2]
  rw [hstay, hk]
  exact hfin

theorem transfer_step_fragmenter (w C : Nat) (s : link_t) :
    (transfer_step w C s).fragmenter = (fragmenter_next w s.fragmenter s.buffer C).1 := by
  unfold transfer_step
  dsimp only
  split <;> rfl

theorem fragmenter_next_stuck (f : fragmenter_t) (buf : Mem) (hl : f.length = 256)
    (hp : f.position = 0) :
    (fragmenter_next 32 f buf 257).1.length = 256 ∧
      (fragmenter_next 32 f buf 257).1.position = 0 ∧
      (fragmenter_next 32 f buf 257).2.2 = 1 := by
  simp [fragmenter_next, fragmenter_has_more, hl, hp, CHUNK_HEADER_SIZE]

theorem transfer_stuck (s : link_t) (hl : s.fragmenter.length = 256)
    (hp : s.fragmenter.position = 0) (n : Nat) :
    (transfer 32 257 n s).fragmenter.length = 256 ∧
      (transfer 32 257 n s).fragmenter.position = 0 := by
  induction n with
  | zero => exact ⟨hl, hp⟩
  | succ n ih =>
    rw [transfer_succ, transfer_step_fragmenter]
    have h := fragmenter_next_stuck (transfer 32 257 n s).fragmenter
      (transfer 32 257 n s).buffer ih.1 ih.2
    exact ⟨h.1, h.2.1⟩

theorem collision_run (cap : Nat) (h256 : 256 ≤ cap) (hcapw : cap < 2 ^ 32) :
    (transfer 32 2 256 (ramp_link 257 cap)).statuses =
        List.replicate 255 REASSEMBLER_INCOMPLETE ++ [REASSEMBLER_COMPLETE] ∧
      fragmenter_has_more (transfer 32 2 256 (ramp_link 257 cap)).fragmenter = 1 ∧
      (transfer 32 2 257 (ramp_link 257 cap)).statuses =
        List.replicate 255 REASSEMBLER_INCOMPLETE ++
          [REASSEMBLER_COMPLETE, REASSEMBLER_LAST_CHUNK_ALREADY_RECEIVED] ∧
      fragmenter_has_more (transfer 32 2 257 (ramp_link 257 cap)).fragmenter = 0 ∧
      (transfer 32 2 257 (ramp_link 257 cap)).reassembler.current_size = 256 := by
  have hs0 : Synced ramp 257 cap zero_mem 0 0 (ramp_link 257 cap) :=
    synced_init fragmenter_blank zero_mem reassembler_blank ramp 257 zero_mem cap (by omega)
  have hs := synced_transfer 32 2 ramp 257 cap zero_mem _ (by norm_num) (by norm_num)
    (by norm_num) (by norm_num) hcapw hs0 255 (by norm_num) (by norm_num) (by omega)
  have hc := synced_collision_step 32 2 ramp 257 cap zero_mem _ _ (by norm_num) (by norm_num)
    (by norm_num) (by norm_num) hcapw hs (by norm_num) (by omega)
  rw [← transfer_succ] at hc
  obtain ⟨hst, hmore, hflag, hinit, hcur, hlen, hpos⟩ := hc
  have ha := transfer_step_after_complete 32 2 (transfer 32 2 (255 + 1) (ramp_link 257 cap))
    (by norm_num) (by norm_num) (by norm_num) (by rw [hlen]; norm_num)
    (by rw [hlen, hpos]; norm_num) (by rw [hlen, hpos]) (by rw [hinit]; norm_num)
    (by rw [hflag]; norm_num)
  rw [← transfer_succ] at ha
  refine ⟨hst, hmore, ?_, ha.2.2, ?_⟩
  · rw [ha.1, hst, List.append_assoc]; rfl
  · rw [ha.2.1, hcur]

/-! ## C1: round trip -/

/-- C1, refuted as stated.  (a) A 257-byte message at chunk capacity 2 needs 256 regular
chunks: the 256th chunk leaves the fragmenter with header 255 while more bytes remain, the
reassembler answers COMPLETE to it and LAST_CHUNK_ALREADY_RECEIVED to the real final chunk,
and ends with 256 bytes instead of 257.  (b) At chunk capacity 257 a 256-byte message never
drains: after any number of driver turns `fragmenter_has_more` is still 1. -/
theorem roundtrip_unbounded_fails :
    ((transfer 32 2 256 (ramp_link 257 257)).statuses =
        List.replicate 255 REASSEMBLER_INCOMPLETE ++ [REASSEMBLER_COMPLETE] ∧
      fragmenter_has_more (transfer 32 2 256 (ramp_link 257 257)).fragmenter = 1 ∧
      (transfer 32 2 257 (ramp_link 257 257)).statuses =
        List.replicate 255 REASSEMBLER_INCOMPLETE ++
          [REASSEMBLER_COMPLETE, REASSEMBLER_LAST_CHUNK_ALREADY_RECEIVED] ∧
      fragmenter_has_more (transfer 32 2 257 (ramp_link 257 257)).fragmenter = 0 ∧
      (transfer 32 2 257 (ramp_link 257 257)).reassembler.current_size = 256) ∧
    (∀ n, fragmenter_has_more (transfer 32 257 n (ramp_link 256 256)).fragmenter = 1) := by
  refine ⟨collision_run 257 (by norm_num) (by norm_num), ?_⟩
  intro n
  have h := transfer_stuck (ramp_link 256 256) rfl rfl n
  simp [fragmenter_has_more, h.1, h.2]

/-- C1, amended: for a chunk capacity `2 ≤ C ≤ 256` and a message of `L` bytes that needs
at most 256 chunks (`L ≤ 256 * (C - 1)`), feeding the chunks `fragmenter_next` produces, in
order, to a reassembler freshly initialised with a capacity `cap ≥ L` gives INCOMPLETE for
every chunk but the last and COMPLETE for the last; after these `chunk_count L C` chunks
(and after any further driver turn) `fragmenter_next` returns 0, `current_size` is `L` and
the first `L` bytes of the destination are the message. -/
theorem roundtrip_within_limits (w C L cap : Nat) (data dest out : Mem) (f0 : fragmenter_t)
    (r0 : reassembler_t) (hC : 2 ≤ C) (hC256 : C ≤ 256) (hCw : C < 2 ^ w)
    (hcount : L ≤ 256 * (C - 1)) (hcap1 : 1 ≤ cap) (hcap : L ≤ cap) (hcapw : cap < 2 ^ w)
    (n : Nat) (hn : chunk_count L C ≤ n) :
    (transfer w C n (link_init f0 out r0 data L dest cap)).statuses =
        List.replicate (chunk_count L C - 1) REASSEMBLER_INCOMPLETE ++
          (if L = 0 then [] else [REASSEMBLER_COMPLETE]) ∧
      (transfer w C n (link_init f0 out r0 data L dest cap)).reassembler.current_size = L ∧
      (∀ i, i < L →
        (transfer w C n (link_init f0 out r0 data L dest cap)).reassembler.data_buffer i
          = data i) ∧
      (fragmenter_next w (transfer w C n (link_init f0 out r0 data L dest cap)).fragmenter
        (transfer w C n (link_init f0 out r0 data L dest cap)).buffer C).2.2 = 0 := by
  by_cases hL : L = 0
  · subst hL
    have hdr : fragmenter_has_more (link_init f0 out r0 data 0 dest cap).fragmenter = 0 := by
      simp [link_init, fragmenter_init, fragmenter_has_more]
    have hc0 : cap ≠ 0 := by omega
    rw [transfer_drained _ _ _ _ hdr, fragmenter_next_drained _ _ _ _ hdr]
    have hk : chunk_count 0 C = 0 := by
      simp only [chunk_count]
      exact Nat.div_eq_of_lt (by omega)
    refine ⟨by simp [link_init, hk], by simp [link_init, reassembler_init, hc0],
      fun i hi => absurd hi (Nat.not_lt_zero i), rfl⟩
  · have h := link_roundtrip w C L cap data dest out f0 r0 hC hC256 hCw hcount (by omega) hcap
      hcapw n hn
    rw [fragmenter_next_drained _ _ _ _ h.2.2.2.2]
    refine ⟨by rw [h.1, if_neg hL], h.2.1, h.2.2.1, rfl⟩

/-- C1, the example of the spec: ten bytes at chunk capacity 4 travel as four chunks with
statuses INCOMPLETE, INCOMPLETE, INCOMPLETE, COMPLETE, and the destination then holds the
ten bytes. -/
theorem roundtrip_within_limits_witness :
    (transfer 32 4 4 (link_init fragmenter_blank zero_mem reassembler_blank ramp 10 zero_mem
        10)).statuses =
      [REASSEMBLER_INCOMPLETE, REASSEMBLER_INCOMPLETE, REASSEMBLER_INCOMPLETE,
        REASSEMBLER_COMPLETE] ∧
    (transfer 32 4 4 (link_init fragmenter_blank zero_mem reassembler_blank ramp 10 zero_mem
        10)).reassembler.current_size = 10 ∧
    (transfer 32 4 4 (link_init fragmenter_blank zero_mem reassembler_blank ramp 10 zero_mem
        10)).reassembler.data_buffer 9 = ramp 9 := by
  have h := roundtrip_within_limits 32 4 10 10 ramp zero_mem zero_mem fragmenter_blank
    reassembler_blank (by decide) (by decide) (by decide) (by decide) (by decide) (by decide)
    (by decide) 4 (by decide)
  exact ⟨h.1, h.2.1, h.2.2.1 9 (by decide)⟩

/-! ## C2: no partial application -/

/-- C2, the code at the failing inputs: on a reassembler freshly initialised with capacity
4, a six-byte regular chunk with the expected header 0 is rejected with BUFFER_OVERFLOW
and yet the expected index has moved from 0 to 1; a six-byte terminal chunk (header 255)
is rejected with BUFFER_OVERFLOW and yet the terminal flag is set, so that the next chunk
is answered LAST_CHUNK_ALREADY_RECEIVED. -/
theorem overflow_rejection_mutates :
    (reassembler_fresh 4).last_index_received = 0 ∧
    (reassembler_fresh 4).last_chunk_received = 0 ∧
    (reassembler_add_chunk 32 (reassembler_fresh 4) (some (bytes [0, 1, 2, 3, 4, 5])) 6).2
      = REASSEMBLER_BUFFER_OVERFLOW ∧
    (reassembler_add_chunk 32 (reassembler_fresh 4) (some (bytes [0, 1, 2, 3, 4, 5])) 6).1.last_index_received
      = 1 ∧
    (reassembler_add_chunk 32 (reassembler_fresh 4) (some (bytes [255, 1, 2, 3, 4, 5])) 6).2
      = REASSEMBLER_BUFFER_OVERFLOW ∧
    (reassembler_add_chunk 32 (reassembler_fresh 4) (some (bytes [255, 1, 2, 3, 4, 5])) 6).1.last_chunk_received
      = 1 ∧
    (reassembler_add_chunk 32
      (reassembler_add_chunk 32 (reassembler_fresh 4) (some (bytes [255, 1, 2, 3, 4, 5])) 6).1
      (some (bytes [255, 1])) 2).2 = REASSEMBLER_LAST_CHUNK_ALREADY_RECEIVED := by
  decide

/-! ## C3: the status follows the ordered checks -/

/-- C3, the code at the failing input.  A reassembler of capacity 4 holds two bytes after
the chunk `[0, 7, 7]` and expects index 1.  For a chunk with header 1 and
`chunk_len = 2^32 - 1` (32-bit `size_t`; `2^16 - 1` for a 16-bit one) the ordered checks
of the specification give BUFFER_OVERFLOW, since `current_size + (chunk_len - 1)` exceeds
the capacity 4; `reassembler_add_chunk` tests the wrapped `size_t` sum, which is 0, and
answers INCOMPLETE. -/
theorem add_chunk_status_wraps :
    (reassembler_add_chunk 32 (reassembler_fresh 4) (some (bytes [0, 7, 7])) 3).1.buffer_max_size
      = 4 ∧
    (reassembler_add_chunk 32 (reassembler_fresh 4) (some (bytes [0, 7, 7])) 3).1.current_size
      = 2 ∧
    add_chunk_status_spec
      (reassembler_add_chunk 32 (reassembler_fresh 4) (some (bytes [0, 7, 7])) 3).1
      (filled_chunk 1 9) (2 ^ 32 - 1) = REASSEMBLER_BUFFER_OVERFLOW ∧
    (reassembler_add_chunk 32
      (reassembler_add_chunk 32 (reassembler_fresh 4) (some (bytes [0, 7, 7])) 3).1
      (some (filled_chunk 1 9)) (2 ^ 32 - 1)).2 = REASSEMBLER_INCOMPLETE ∧
    add_chunk_status_spec
      (reassembler_add_chunk 16 (reassembler_fresh 4) (some (bytes [0, 7, 7])) 3).1
      (filled_chunk 1 9) (2 ^ 16 - 1) = REASSEMBLER_BUFFER_OVERFLOW ∧
    (reassembler_add_chunk 16
      (reassembler_add_chunk 16 (reassembler_fresh 4) (some (bytes [0, 7, 7])) 3).1
      (some (filled_chunk 1 9)) (2 ^ 16 - 1)).2 = REASSEMBLER_INCOMPLETE := by
  decide

/-- Within the range where `current_size + (chunk_len - 1)` does not wrap in `size_t`, the
status `reassembler_add_chunk` returns for a non-null chunk buffer is the one the ordered
checks of the specification give: NOT_INIT, else LAST_CHUNK_ALREADY_RECEIVED, else
CHUNK_TOO_SMALL, else SEQUENCE_ERROR, else BUFFER_OVERFLOW, else COMPLETE for header 255
and INCOMPLETE otherwise. -/
theorem add_chunk_status_ordered (w : Nat) (r : reassembler_t) (chunk : Mem) (chunk_len : Nat)
    (hrep : r.current_size + (chunk_len - 1) < 2 ^ w) :
    (reassembler_add_chunk w r (some chunk) chunk_len).2 =
      add_chunk_status_spec r chunk chunk_len := by
  have hmod : (r.current_size + (chunk_len - 1)) % 2 ^ w = r.current_size + (chunk_len - 1) :=
    Nat.mod_eq_of_lt hrep
  unfold reassembler_add_chunk add_chunk_status_spec
  by_cases h1 : r.initialized = 0
  · simp [h1]
  by_cases h2 : r.last_chunk_received = 0
  swap
  · simp [h1, h2]
  by_cases h3 : chunk_len < 1
  · simp [h1, h2, h3, CHUNK_HEADER_SIZE]
  by_cases h4 : chunk 0 = 255
  · by_cases h5 : r.buffer_max_size < r.current_size + (chunk_len - 1)
    · simp [h1, h2, h3, h4, h5, hmod, add_chunk_copy, CHUNK_HEADER_SIZE]
    · simp [h1, h2, h3, h4, h5, hmod, add_chunk_copy, CHUNK_HEADER_SIZE]
  by_cases h6 : chunk 0 = r.last_index_received
  · have h7 : ¬ r.last_index_received = 255 := h6 ▸ h4
    by_cases h5 : r.buffer_max_size < r.current_size + (chunk_len - 1)
    · simp [h1, h2, h3, h5, h6, h7, hmod, add_chunk_copy, CHUNK_HEADER_SIZE]
    · simp [h1, h2, h3, h5, h6, h7, hmod, add_chunk_copy, CHUNK_HEADER_SIZE]
  · simp [h1, h2, h3, h4, h6, CHUNK_HEADER_SIZE]

/-- The ordered checks at a concrete input: an empty chunk that arrives after the terminal
chunk is answered LAST_CHUNK_ALREADY_RECEIVED, not CHUNK_TOO_SMALL. -/
theorem add_chunk_status_ordered_witness :
    (reassembler_add_chunk 32
      (reassembler_add_chunk 32 (reassembler_fresh 4) (some (bytes [255, 7])) 2).1
      (some (bytes [])) 0).2 = REASSEMBLER_LAST_CHUNK_ALREADY_RECEIVED := by
  have h := add_chunk_status_ordered 32
    (reassembler_add_chunk 32 (reassembler_fresh 4) (some (bytes [255, 7])) 2).1 (bytes []) 0
    (by decide)
  rw [h]
  decide

/-! ## C4: chunk sizing -/

/-- C4, the code at the failing inputs.  With 300 unread bytes and capacity 300 the claim
asks for a payload of 299 bytes and a return value of 300; the code returns 44 and advances
`position` by 43 (299 modulo 256).  With 256 unread bytes and capacity 257 the claim asks
for a payload of 256 bytes; the code returns 1 (header only), leaves `position` at 0 and
still has more, so a caller looping on `fragmenter_has_more` never ends. -/
theorem fragmenter_next_truncates :
    (fragmenter_next 32 (fragmenter_init fragmenter_blank ramp 300) zero_mem 300).2.2 = 44 ∧
    (fragmenter_next 32 (fragmenter_init fragmenter_blank ramp 300) zero_mem 300).1.position
      = 43 ∧
    (fragmenter_next 32 (fragmenter_init fragmenter_blank ramp 256) zero_mem 257).2.2 = 1 ∧
    (fragmenter_next 32 (fragmenter_init fragmenter_blank ramp 256) zero_mem 257).1.position
      = 0 ∧
    fragmenter_has_more
      (fragmenter_next 32 (fragmenter_init fragmenter_blank ramp 256) zero_mem 257).1 = 1 := by
  decide

/-! ## C5: accepting a regular chunk -/

/-- C5: on an initialised reassembler whose terminal flag is clear, a chunk of at least one
byte whose header byte is the expected index and not 255, and whose payload fits
(`current_size + payload_len ≤ buffer_max_size`), is answered INCOMPLETE; its payload bytes
land at the offsets from `current_size` on, every other destination byte (in particular
those below the old `current_size`) is unchanged, `current_size` grows by the payload
length, the expected index grows by one and the terminal flag stays clear. -/
theorem add_chunk_regular_accepted (w : Nat) (r : reassembler_t) (chunk : Mem)
    (chunk_len : Nat) (hinit : r.initialized ≠ 0) (hflag : r.last_chunk_received = 0)
    (hlen : 1 ≤ chunk_len) (hidx : chunk 0 = r.last_index_received) (hne : chunk 0 ≠ 255)
    (hbyte : chunk 0 < 256) (hfit : r.current_size + (chunk_len - 1) ≤ r.buffer_max_size)
    (hmax : r.buffer_max_size < 2 ^ w) :
    (reassembler_add_chunk w r (some chunk) chunk_len).2 = REASSEMBLER_INCOMPLETE ∧
    (∀ i, r.current_size ≤ i → i < r.current_size + (chunk_len - 1) →
      (reassembler_add_chunk w r (some chunk) chunk_len).1.data_buffer i
        = chunk (1 + (i - r.current_size))) ∧
    (∀ i, i < r.current_size →
      (reassembler_add_chunk w r (some chunk) chunk_len).1.data_buffer i = r.data_buffer i) ∧
    (∀ i, r.current_size + (chunk_len - 1) ≤ i →
      (reassembler_add_chunk w r (some chunk) chunk_len).1.data_buffer i = r.data_buffer i) ∧
    (reassembler_add_chunk w r (some chunk) chunk_len).1.current_size
      = r.current_size + (chunk_len - 1) ∧
    (reassembler_add_chunk w r (some chunk) chunk_len).1.last_index_received
      = r.last_index_received + 1 ∧
    (reassembler_add_chunk w r (some chunk) chunk_len).1.last_chunk_received = 0 ∧
    (reassembler_add_chunk w r (some chunk) chunk_len).1.buffer_max_size
      = r.buffer_max_size ∧
    (reassembler_add_chunk w r (some chunk) chunk_len).1.initialized = r.initialized := by
  rw [add_chunk_accept_regular w r chunk chunk_len hinit hflag hlen hidx hne hfit hmax]
  refine ⟨rfl, ?_, ?_, ?_, rfl, ?_, hflag, rfl, rfl⟩
  · intro i h1 h2
    exact memcpy_in _ _ _ _ _ _ h1 h2
  · intro i h1
    exact memcpy_out _ _ _ _ _ _ (Or.inl h1)
  · intro i h1
    exact memcpy_out _ _ _ _ _ _ (Or.inr h1)
  · show (r.last_index_received + 1) % 256 = r.last_index_received + 1
    exact Nat.mod_eq_of_lt (by omega)

/-- C5 at a concrete input: after the chunk `[0, 10, 11]`, the chunk `[1, 12, 13]` is
accepted by a reassembler of capacity 4 and fills offsets 2 and 3. -/
theorem add_chunk_regular_accepted_witness :
    (reassembler_add_chunk 32
      (reassembler_add_chunk 32 (reassembler_fresh 4) (some (bytes [0, 10, 11])) 3).1
      (some (bytes [1, 12, 13])) 3).2 = REASSEMBLER_INCOMPLETE ∧
    (reassembler_add_chunk 32
      (reassembler_add_chunk 32 (reassembler_fresh 4) (some (bytes [0, 10, 11])) 3).1
      (some (bytes [1, 12, 13])) 3).1.current_size = 2 + (3 - 1) ∧
    (reassembler_add_chunk 32
      (reassembler_add_chunk 32 (reassembler_fresh 4) (some (bytes [0, 10, 11])) 3).1
      (some (bytes [1, 12, 13])) 3).1.last_index_received = 1 + 1 := by
  have h := add_chunk_regular_accepted 32
    (reassembler_add_chunk 32 (reassembler_fresh 4) (some (bytes [0, 10, 11])) 3).1
    (bytes [1, 12, 13]) 3 (by decide) (by decide) (by decide) (by decide) (by decide)
    (by decide) (by decide) (by decide)
  exact ⟨h.1, h.2.2.2.2.1, h.2.2.2.2.2.1⟩

/-! ## C6: accepting the terminal chunk -/

/-- C6: on an initialised reassembler whose terminal flag is clear, whatever the expected
index is, a chunk with header 255 whose payload fits the remaining capacity is answered
COMPLETE: the terminal flag is set, the payload lands at `current_size`, the other
destination bytes and the expected index are unchanged.  In particular the one-byte chunk
`[255]` leaves `current_size` and the whole destination buffer as they were. -/
theorem add_chunk_terminal_accepted (w : Nat) (r : reassembler_t) (chunk : Mem)
    (chunk_len : Nat) (hinit : r.initialized ≠ 0) (hflag : r.last_chunk_received = 0)
    (hlen : 1 ≤ chunk_len) (hidx : chunk 0 = 255)
    (hfit : r.current_size + (chunk_len - 1) ≤ r.buffer_max_size)
    (hmax : r.buffer_max_size < 2 ^ w) :
    (reassembler_add_chunk w r (some chunk) chunk_len).2 = REASSEMBLER_COMPLETE ∧
    (reassembler_add_chunk w r (some chunk) chunk_len).1.last_chunk_received = 1 ∧
    (∀ i, r.current_size ≤ i → i < r.current_size + (chunk_len - 1) →
      (reassembler_add_chunk w r (some chunk) chunk_len).1.data_buffer i
        = chunk (1 + (i - r.current_size))) ∧
    (∀ i, i < r.current_size ∨ r.current_size + (chunk_len - 1) ≤ i →
      (reassembler_add_chunk w r (some chunk) chunk_len).1.data_buffer i = r.data_buffer i) ∧
    (reassembler_add_chunk w r (some chunk) chunk_len).1.current_size
      = r.current_size + (chunk_len - 1) ∧
    (reassembler_add_chunk w r (some chunk) chunk_len).1.last_index_received
      = r.last_index_received ∧
    (chunk_len = 1 →
      (reassembler_add_chunk w r (some chunk) chunk_len).1.current_size = r.current_size ∧
      (reassembler_add_chunk w r (some chunk) chunk_len).1.data_buffer = r.data_buffer) := by
  rw [add_chunk_accept_last w r chunk chunk_len hinit hflag hlen hidx hfit hmax]
  refine ⟨rfl, rfl, ?_, ?_, rfl, rfl, ?_⟩
  · intro i h1 h2
    exact memcpy_in _ _ _ _ _ _ h1 h2
  · intro i h1
    exact memcpy_out _ _ _ _ _ _ h1
  · intro h1
    subst h1
    refine ⟨rfl, ?_⟩
    funext i
    exact memcpy_out _ _ _ _ _ _ (by omega)

/-- C6 at a concrete input: a reassembler of capacity 4 that holds two bytes and expects
index 1 answers COMPLETE to the one-byte chunk `[255]` and keeps `current_size` at 2. -/
theorem add_chunk_terminal_accepted_witness :
    (reassembler_add_chunk 32
      (reassembler_add_chunk 32 (reassembler_fresh 4) (some (bytes [0, 10, 11])) 3).1
      (some (bytes [255])) 1).2 = REASSEMBLER_COMPLETE ∧
    (reassembler_add_chunk 32
      (reassembler_add_chunk 32 (reassembler_fresh 4) (some (bytes [0, 10, 11])) 3).1
      (some (bytes [255])) 1).1.current_size = 2 ∧
    (reassembler_add_chunk 32
      (reassembler_add_chunk 32 (reassembler_fresh 4) (some (bytes [0, 10, 11])) 3).1
      (some (bytes [255])) 1).1.last_index_received = 1 := by
  have h := add_chunk_terminal_accepted 32
    (reassembler_add_chunk 32 (reassembler_fresh 4) (some (bytes [0, 10, 11])) 3).1
    (bytes [255]) 1 (by decide) (by decide) (by decide) (by decide) (by decide) (by decide)
  exact ⟨h.1, (h.2.2.2.2.2.2 rfl).1, h.2.2.2.2.2.1⟩

/-! ## C7: capacity invariant -/

/-- C7, the code at the failing input.  A reassembler of capacity 4 (`size_t` of 32 bits)
holds two bytes after the chunk `[0, 7, 7]`.  A chunk with the expected header 1, payload
bytes 9 and `chunk_len = 2^32 - 1` makes `current_size + payload_len` wrap around to 0, so
the overflow check passes: the call is answered INCOMPLETE, the bytes at offsets 4 and 1000
of the destination, beyond its capacity, are overwritten with 9, and `current_size` drops
to 0.  The same happens with a 16-bit `size_t` and `chunk_len = 2^16 - 1`. -/
theorem add_chunk_writes_past_capacity :
    (reassembler_add_chunk 32 (reassembler_fresh 4) (some (bytes [0, 7, 7])) 3).1.current_size
      = 2 ∧
    (reassembler_add_chunk 32
      (reassembler_add_chunk 32 (reassembler_fresh 4) (some (bytes [0, 7, 7])) 3).1
      (some (filled_chunk 1 9)) (2 ^ 32 - 1)).2 = REASSEMBLER_INCOMPLETE ∧
    (reassembler_add_chunk 32
      (reassembler_add_chunk 32 (reassembler_fresh 4) (some (bytes [0, 7, 7])) 3).1
      (some (filled_chunk 1 9)) (2 ^ 32 - 1)).1.buffer_max_size = 4 ∧
    (reassembler_add_chunk 32 (reassembler_fresh 4) (some (bytes [0, 7, 7])) 3).1.data_buffer 4
      = 0 ∧
    (reassembler_add_chunk 32
      (reassembler_add_chunk 32 (reassembler_fresh 4) (some (bytes [0, 7, 7])) 3).1
      (some (filled_chunk 1 9)) (2 ^ 32 - 1)).1.data_buffer 4 = 9 ∧
    (reassembler_add_chunk 32
      (reassembler_add_chunk 32 (reassembler_fresh 4) (some (bytes [0, 7, 7])) 3).1
      (some (filled_chunk 1 9)) (2 ^ 32 - 1)).1.data_buffer 1000 = 9 ∧
    (reassembler_add_chunk 32
      (reassembler_add_chunk 32 (reassembler_fresh 4) (some (bytes [0, 7, 7])) 3).1
      (some (filled_chunk 1 9)) (2 ^ 32 - 1)).1.current_size = 0 ∧
    (reassembler_add_chunk 16
      (reassembler_add_chunk 16 (reassembler_fresh 4) (some (bytes [0, 7, 7])) 3).1
      (some (filled_chunk 1 9)) (2 ^ 16 - 1)).2 = REASSEMBLER_INCOMPLETE ∧
    (reassembler_add_chunk 16
      (reassembler_add_chunk 16 (reassembler_fresh 4) (some (bytes [0, 7, 7])) 3).1
      (some (filled_chunk 1 9)) (2 ^ 16 - 1)).1.data_buffer 4 = 9 := by
  decide

/-! ## C8: gap-free sequence -/

/-- C8, the code at the failing input.  On a reassembler of capacity 4 the calls with the
chunks `[0, 10]`, `[1, 11, 12, 13, 14]`, `[1, 11]` and `[2, 12]` are answered INCOMPLETE,
BUFFER_OVERFLOW, SEQUENCE_ERROR and INCOMPLETE: the rejected oversized chunk has consumed
index 1, so the headers of the accepted regular chunks are 0 and 2, with a gap. -/
theorem accepted_headers_gap :
    (add_chunks 32 (reassembler_fresh 4)
      [(bytes [0, 10], 2), (bytes [1, 11, 12, 13, 14], 5), (bytes [1, 11], 2),
        (bytes [2, 12], 2)]).2 =
      [REASSEMBLER_INCOMPLETE, REASSEMBLER_BUFFER_OVERFLOW, REASSEMBLER_SEQUENCE_ERROR,
        REASSEMBLER_INCOMPLETE] ∧
    accepted_headers 32 (reassembler_fresh 4)
      [(bytes [0, 10], 2), (bytes [1, 11, 12, 13, 14], 5), (bytes [1, 11], 2),
        (bytes [2, 12], 2)] = [0, 2] := by
  decide

/-! ## C9: overflow safety -/

theorem chunks_that_fit_spec (L C cap : Nat) (hcount : L ≤ 256 * (C - 1))
    (hcapL : cap < L) :
    chunks_that_fit cap C ≤ 255 ∧ chunks_that_fit cap C * (C - 1) ≤ cap ∧
      cap < chunks_that_fit cap C * (C - 1) + (C - 1) := by
  have hp : 0 < C - 1 := by omega
  have h1 := Nat.div_add_mod cap (C - 1)
  have h2 := Nat.mod_lt cap hp
  have h3 : (C - 1) * (cap / (C - 1)) = cap / (C - 1) * (C - 1) := Nat.mul_comm _ _
  have h4 : cap / (C - 1) < 256 := by
    rw [Nat.div_lt_iff_lt_mul hp]
    omega
  simp only [chunks_that_fit]
  omega

/-- C9, refuted as stated: a 257-byte message at chunk capacity 2 sent to a reassembler of
capacity 256.  The first 256 one-byte payloads fit, yet the 256th chunk (header 255 by
index collision) is answered COMPLETE instead of INCOMPLETE, and the 257th chunk, the one
that exceeds the capacity, is answered LAST_CHUNK_ALREADY_RECEIVED: no call returns
BUFFER_OVERFLOW before the fragmenter is drained. -/
theorem overflow_unbounded_fails :
    (transfer 32 2 256 (ramp_link 257 256)).statuses =
        List.replicate 255 REASSEMBLER_INCOMPLETE ++ [REASSEMBLER_COMPLETE] ∧
      fragmenter_has_more (transfer 32 2 256 (ramp_link 257 256)).fragmenter = 1 ∧
      (transfer 32 2 257 (ramp_link 257 256)).statuses =
        List.replicate 255 REASSEMBLER_INCOMPLETE ++
          [REASSEMBLER_COMPLETE, REASSEMBLER_LAST_CHUNK_ALREADY_RECEIVED] ∧
      fragmenter_has_more (transfer 32 2 257 (ramp_link 257 256)).fragmenter = 0 ∧
      (transfer 32 2 257 (ramp_link 257 256)).reassembler.current_size = 256 :=
  collision_run 256 (by norm_num) (by norm_num)

/-- C9, amended: for a chunk capacity `2 ≤ C ≤ 256` and a message of `L` bytes that needs
at most 256 chunks, sent to a reassembler freshly initialised with a capacity
`1 ≤ cap < L`: the first `chunks_that_fit cap C` chunks are answered INCOMPLETE and leave
`current_size` within the capacity; the payload of the next chunk would push it beyond the
capacity, and that chunk is answered BUFFER_OVERFLOW by a call that leaves `current_size`
and every byte of the destination buffer as they were. -/
theorem overflow_within_limits (w C L cap : Nat) (data dest out : Mem) (f0 : fragmenter_t)
    (r0 : reassembler_t) (hC : 2 ≤ C) (hC256 : C ≤ 256) (hCw : C < 2 ^ w)
    (hcount : L ≤ 256 * (C - 1)) (hcap1 : 1 ≤ cap) (hcapL : cap < L) (hLw : L < 2 ^ w) :
    (transfer w C (chunks_that_fit cap C) (link_init f0 out r0 data L dest cap)).statuses =
        List.replicate (chunks_that_fit cap C) REASSEMBLER_INCOMPLETE ∧
      (transfer w C (chunks_that_fit cap C)
        (link_init f0 out r0 data L dest cap)).reassembler.current_size ≤ cap ∧
      cap < (transfer w C (chunks_that_fit cap C)
          (link_init f0 out r0 data L dest cap)).reassembler.current_size +
        ((fragmenter_next w
          (transfer w C (chunks_that_fit cap C) (link_init f0 out r0 data L dest cap)).fragmenter
          (transfer w C (chunks_that_fit cap C) (link_init f0 out r0 data L dest cap)).buffer
          C).2.2 - 1) ∧
      (transfer w C (chunks_that_fit cap C + 1) (link_init f0 out r0 data L dest cap)).statuses =
        List.replicate (chunks_that_fit cap C) REASSEMBLER_INCOMPLETE ++
          [REASSEMBLER_BUFFER_OVERFLOW] ∧
      (transfer w C (chunks_that_fit cap C + 1)
          (link_init f0 out r0 data L dest cap)).reassembler.current_size =
        (transfer w C (chunks_that_fit cap C)
          (link_init f0 out r0 data L dest cap)).reassembler.current_size ∧
      (transfer w C (chunks_that_fit cap C + 1)
          (link_init f0 out r0 data L dest cap)).reassembler.data_buffer =
        (transfer w C (chunks_that_fit cap C)
          (link_init f0 out r0 data L dest cap)).reassembler.data_buffer := by
  obtain ⟨hj, hle, hlt⟩ := chunks_that_fit_spec L C cap hcount hcapL
  have hL32 : L < 2 ^ 32 := by
    have : (2 : Nat) ^ 32 = 4294967296 := by norm_num
    omega
  have hs0 := synced_init f0 out r0 data L dest cap (by omega)
  have hs := synced_transfer w C data L cap dest _ hC hC256 hCw hL32 (by omega) hs0
    (chunks_that_fit cap C) hj (by omega) hle
  have hov := synced_overflow_step w C data L cap dest _ _ _ hC hC256 hCw hL32 hLw hs
    (by omega) hcapL hlt
  rw [← transfer_succ] at hov
  obtain ⟨-, -, -, -, -, hcur, -, -, -, -, -, hst⟩ := hs
  refine ⟨hst, by rw [hcur]; exact hle, by rw [hcur]; exact hov.2.2.2, hov.1, hov.2.1,
    hov.2.2.1⟩

/-- C9 at a concrete input: ten bytes at chunk capacity 4 sent to a reassembler of
capacity 7.  Two chunks are answered INCOMPLETE, the third BUFFER_OVERFLOW, and
`current_size` is 6 before and after the third call. -/
theorem overflow_within_limits_witness :
    (transfer 32 4 (2 + 1) (link_init fragmenter_blank zero_mem reassembler_blank ramp 10
        zero_mem 7)).statuses =
      [REASSEMBLER_INCOMPLETE, REASSEMBLER_INCOMPLETE, REASSEMBLER_BUFFER_OVERFLOW] ∧
    (transfer 32 4 (2 + 1) (link_init fragmenter_blank zero_mem reassembler_blank ramp 10
        zero_mem 7)).reassembler.current_size =
      (transfer 32 4 2 (link_init fragmenter_blank zero_mem reassembler_blank ramp 10
        zero_mem 7)).reassembler.current_size ∧
    (transfer 32 4 2 (link_init fragmenter_blank zero_mem reassembler_blank ramp 10
        zero_mem 7)).reassembler.current_size = 6 := by
  have h := overflow_within_limits 32 4 10 7 ramp zero_mem zero_mem fragmenter_blank
    reassembler_blank (by decide) (by decide) (by decide) (by decide) (by decide) (by decide)
    (by decide)
  exact ⟨h.2.2.2.1, h.2.2.2.2.1, by decide⟩

/-! ## C10: idempotent rejection -/

/-- C10: when `reassembler_add_chunk` has accepted a regular chunk (answered INCOMPLETE),
an immediate second call with any chunk that carries the same header byte is answered
SEQUENCE_ERROR and returns the state unchanged: `current_size`, the expected index, the
terminal flag and the destination bytes are those the first call left. -/
theorem add_chunk_same_index_rejected (w : Nat) (r : reassembler_t) (chunk : Mem)
    (chunk_len : Nat) (chunk2 : Mem) (chunk_len2 : Nat)
    (hacc : (reassembler_add_chunk w r (some chunk) chunk_len).2 = REASSEMBLER_INCOMPLETE)
    (hsame : chunk2 0 = chunk 0) (hlen2 : 1 ≤ chunk_len2) :
    (reassembler_add_chunk w (reassembler_add_chunk w r (some chunk) chunk_len).1
        (some chunk2) chunk_len2).2 = REASSEMBLER_SEQUENCE_ERROR ∧
      (reassembler_add_chunk w (reassembler_add_chunk w r (some chunk) chunk_len).1
        (some chunk2) chunk_len2).1 = (reassembler_add_chunk w r (some chunk) chunk_len).1 := by
  have hnl : ¬ chunk_len2 < 1 := by omega
  by_cases h1 : r.initialized = 0
  · simp [reassembler_add_chunk, h1] at hacc
  by_cases h2 : r.last_chunk_received = 0
  swap
  · simp [reassembler_add_chunk, h1, h2] at hacc
  by_cases h3 : chunk_len < 1
  · simp [reassembler_add_chunk, h1, h2, h3, CHUNK_HEADER_SIZE] at hacc
  by_cases h4 : chunk 0 = 255
  · by_cases h5 : r.buffer_max_size < (r.current_size + (chunk_len - 1)) % 2 ^ w
    · simp [reassembler_add_chunk, add_chunk_copy, h1, h2, h3, h4, h5, CHUNK_HEADER_SIZE]
        at hacc
    · simp [reassembler_add_chunk, add_chunk_copy, h1, h2, h3, h4, h5, CHUNK_HEADER_SIZE]
        at hacc
  by_cases h6 : chunk 0 = r.last_index_received
  swap
  · simp [reassembler_add_chunk, h1, h2, h3, h4, h6, CHUNK_HEADER_SIZE] at hacc
  by_cases h5 : r.buffer_max_size < (r.current_size + (chunk_len - 1)) % 2 ^ w
  · simp [reassembler_add_chunk, add_chunk_copy, h1, h2, h3, h4, h5, h6.symm,
      CHUNK_HEADER_SIZE] at hacc
  · have hne : ¬ chunk 0 = (chunk 0 + 1) % 256 := by omega
    have hfirst : reassembler_add_chunk w r (some chunk) chunk_len =
        ({ r with
            last_index_received := (r.last_index_received + 1) % 256,
            data_buffer := memcpy r.data_buffer r.current_size chunk 1 (chunk_len - 1),
            current_size := (r.current_size + (chunk_len - 1)) % 2 ^ w },
          REASSEMBLER_INCOMPLETE) := by
      simp [reassembler_add_chunk, add_chunk_copy, h1, h2, h3, h4, h5, h6.symm,
        CHUNK_HEADER_SIZE]
    rw [hfirst]
    simp [reassembler_add_chunk, h1, h2, hnl, hsame, h4, h6.symm, hne, CHUNK_HEADER_SIZE]

/-- C10 at a concrete input: the chunk `[0, 10, 11]` is accepted by a fresh reassembler of
capacity 4, and the chunk `[0, 12]` that follows it is answered SEQUENCE_ERROR while
`current_size` stays at 2. -/
theorem add_chunk_same_index_rejected_witness :
    (reassembler_add_chunk 32
      (reassembler_add_chunk 32 (reassembler_fresh 4) (some (bytes [0, 10, 11])) 3).1
      (some (bytes [0, 12])) 2).2 = REASSEMBLER_SEQUENCE_ERROR ∧
    (reassembler_add_chunk 32
      (reassembler_add_chunk 32 (reassembler_fresh 4) (some (bytes [0, 10, 11])) 3).1
      (some (bytes [0, 12])) 2).1.current_size = 2 := by
  have h := add_chunk_same_index_rejected 32 (reassembler_fresh 4) (bytes [0, 10, 11]) 3
    (bytes [0, 12]) 2 (by decide) (by decide) (by decide)
  exact ⟨h.1, by rw [h.2]; decide⟩

/-! ## Auxiliary lemmas on call sequences -/

theorem add_chunks_cons (w : Nat) (r : reassembler_t) (c : Mem × Nat) (rest : List (Mem × Nat)) :
    add_chunks w r (c :: rest) =
      ((add_chunks w (reassembler_add_chunk w r (some c.1) c.2).1 rest).1,
        (reassembler_add_chunk w r (some c.1) c.2).2 ::
          (add_chunks w (reassembler_add_chunk w r (some c.1) c.2).1 rest).2) := rfl

theorem add_chunk_complete_flags (w : Nat) (r : reassembler_t) (chunk : Mem) (chunk_len : Nat)
    (h : (reassembler_add_chunk w r (some chunk) chunk_len).2 = REASSEMBLER_COMPLETE) :
    (reassembler_add_chunk w r (some chunk) chunk_len).1.initialized ≠ 0 ∧
      (reassembler_add_chunk w r (some chunk) chunk_len).1.last_chunk_received ≠ 0 := by
  unfold reassembler_add_chunk add_chunk_copy at h ⊢
  dsimp only at h ⊢
  split_ifs at h ⊢
  all_goals simp_all

theorem add_chunks_after_last (w : Nat) (r : reassembler_t) (hinit : r.initialized ≠ 0)
    (hflag : r.last_chunk_received ≠ 0) (chunks : List (Mem × Nat)) :
    add_chunks w r chunks =
      (r, List.replicate chunks.length REASSEMBLER_LAST_CHUNK_ALREADY_RECEIVED) := by
  induction chunks with
  | nil => rfl
  | cons c rest ih =>
    rw [add_chunks_cons, add_chunk_some_after_last w r c.1 c.2 hinit hflag]
    simp only [ih, List.length_cons, List.replicate_succ]

theorem add_chunks_complete_count (w : Nat) (chunks : List (Mem × Nat)) :
    ∀ r : reassembler_t, (add_chunks w r chunks).2.count REASSEMBLER_COMPLETE ≤ 1 := by
  induction chunks with
  | nil => intro r; simp [add_chunks]
  | cons c rest ih =>
    intro r
    rw [add_chunks_cons]
    by_cases hc : (reassembler_add_chunk w r (some c.1) c.2).2 = REASSEMBLER_COMPLETE
    · obtain ⟨h1, h2⟩ := add_chunk_complete_flags w r c.1 c.2 hc
      rw [add_chunks_after_last w _ h1 h2 rest, hc]
      simp [List.count_cons, List.count_replicate]
    · have := ih (reassembler_add_chunk w r (some c.1) c.2).1
      simp only [List.count_cons]
      have hne : ((reassembler_add_chunk w r (some c.1) c.2).2 == REASSEMBLER_COMPLETE)
          = false := by simpa using hc
      simp [hne, this]

/-! ## C11: reset semantics -/

/-- C11: `reassembler_reset` on a reassembler whose `initialized` flag is set returns
REASSEMBLER_RESET, zeroes `current_size`, the expected index and the terminal flag, and
leaves `data_buffer`, `buffer_max_size` and `initialized` as they were.  For a reassembler
as `reassembler_init` leaves it (`initialized = 1`, non-zero capacity), whatever was added
since, the state after the reset is the state `reassembler_init` produces for the same
buffer and capacity, so every later chunk sequence gives the same statuses and the same
final state as on a fresh reassembler.  On a reassembler whose flag is clear the reset
returns NOT_INIT and changes nothing. -/
theorem reset_semantics (w : Nat) (r r0 : reassembler_t) (chunks : List (Mem × Nat))
    (hinit : r.initialized = 1) (hcap : r.buffer_max_size ≠ 0) :
    (∀ r1 : reassembler_t, r1.initialized ≠ 0 →
      (reassembler_reset r1).2 = REASSEMBLER_RESET ∧
      (reassembler_reset r1).1.current_size = 0 ∧
      (reassembler_reset r1).1.last_index_received = 0 ∧
      (reassembler_reset r1).1.last_chunk_received = 0 ∧
      (reassembler_reset r1).1.data_buffer = r1.data_buffer ∧
      (reassembler_reset r1).1.buffer_max_size = r1.buffer_max_size ∧
      (reassembler_reset r1).1.initialized = r1.initialized) ∧
    (reassembler_reset r).1 = (reassembler_init r0 (some r.data_buffer) r.buffer_max_size).1 ∧
    (reassembler_init r0 (some r.data_buffer) r.buffer_max_size).2 = REASSEMBLER_INIT ∧
    add_chunks w (reassembler_reset r).1 chunks =
      add_chunks w (reassembler_init r0 (some r.data_buffer) r.buffer_max_size).1 chunks ∧
    (∀ r1 : reassembler_t, r1.initialized = 0 →
      reassembler_reset r1 = (r1, REASSEMBLER_NOT_INIT)) := by
  have heq : (reassembler_reset r).1 =
      (reassembler_init r0 (some r.data_buffer) r.buffer_max_size).1 := by
    simp [reassembler_reset, reassembler_init, hinit, hcap]
  refine ⟨?_, heq, by simp [reassembler_init, hcap], by rw [heq], ?_⟩
  · intro r1 h1
    simp [reassembler_reset, h1]
  · intro r1 h1
    simp [reassembler_reset, h1]

/-- C11 at a concrete input: a reassembler of capacity 4 that has just answered COMPLETE
to `[255, 7]` is reset, and the chunks `[0, 1]`, `[255, 2]` of a second message are then
answered INCOMPLETE and COMPLETE, exactly as on a freshly initialised reassembler. -/
theorem reset_semantics_witness :
    (reassembler_add_chunk 32 (reassembler_fresh 4) (some (bytes [255, 7])) 2).2
      = REASSEMBLER_COMPLETE ∧
    (add_chunks 32
      (reassembler_reset
        (reassembler_add_chunk 32 (reassembler_fresh 4) (some (bytes [255, 7])) 2).1).1
      [(bytes [0, 1], 2), (bytes [255, 2], 2)]).2 =
      [REASSEMBLER_INCOMPLETE, REASSEMBLER_COMPLETE] ∧
    (add_chunks 32
      (reassembler_reset
        (reassembler_add_chunk 32 (reassembler_fresh 4) (some (bytes [255, 7])) 2).1).1
      [(bytes [0, 1], 2), (bytes [255, 2], 2)]).1.current_size = 2 := by
  have h := reset_semantics 32
    (reassembler_add_chunk 32 (reassembler_fresh 4) (some (bytes [255, 7])) 2).1
    reassembler_blank [(bytes [0, 1], 2), (bytes [255, 2], 2)] (by decide) (by decide)
  refine ⟨by decide, ?_, ?_⟩
  · rw [h.2.2.2.1]; decide
  · rw [h.2.2.2.1]; decide

/-! ## C15: COMPLETE exactly once -/

/-- C15: once a call of `reassembler_add_chunk` has returned COMPLETE, every later call,
whatever chunk buffer and length it is given (an empty chunk and a second chunk with header
255 included), is answered LAST_CHUNK_ALREADY_RECEIVED and returns the state, destination
buffer included, unchanged; and in any sequence of calls, from any state, COMPLETE is
returned at most once. -/
theorem complete_exactly_once (w : Nat) (r : reassembler_t) (chunk : Mem) (chunk_len : Nat)
    (later : List (Mem × Nat))
    (hdone : (reassembler_add_chunk w r (some chunk) chunk_len).2 = REASSEMBLER_COMPLETE) :
    add_chunks w (reassembler_add_chunk w r (some chunk) chunk_len).1 later =
        ((reassembler_add_chunk w r (some chunk) chunk_len).1,
          List.replicate later.length REASSEMBLER_LAST_CHUNK_ALREADY_RECEIVED) ∧
      (∀ (r1 : reassembler_t) (chunks : List (Mem × Nat)),
        (add_chunks w r1 chunks).2.count REASSEMBLER_COMPLETE ≤ 1) := by
  obtain ⟨h1, h2⟩ := add_chunk_complete_flags w r chunk chunk_len hdone
  exact ⟨add_chunks_after_last w _ h1 h2 later, fun r1 chunks =>
    add_chunks_complete_count w chunks r1⟩

/-- C15 at a concrete input: after `[255, 7]` has been answered COMPLETE, an empty chunk,
a second terminal chunk `[255]` and a regular chunk `[0, 1]` are all answered
LAST_CHUNK_ALREADY_RECEIVED and `current_size` stays at 1. -/
theorem complete_exactly_once_witness :
    (add_chunks 32 (reassembler_add_chunk 32 (reassembler_fresh 4) (some (bytes [255, 7])) 2).1
      [(bytes [], 0), (bytes [255], 1), (bytes [0, 1], 2)]).2 =
      [REASSEMBLER_LAST_CHUNK_ALREADY_RECEIVED, REASSEMBLER_LAST_CHUNK_ALREADY_RECEIVED,
        REASSEMBLER_LAST_CHUNK_ALREADY_RECEIVED] ∧
    (add_chunks 32 (reassembler_add_chunk 32 (reassembler_fresh 4) (some (bytes [255, 7])) 2).1
      [(bytes [], 0), (bytes [255], 1), (bytes [0, 1], 2)]).1.current_size = 1 := by
  have h := complete_exactly_once 32 (reassembler_fresh 4) (bytes [255, 7]) 2
    [(bytes [], 0), (bytes [255], 1), (bytes [0, 1], 2)] (by decide)
  refine ⟨?_, ?_⟩
  · rw [h.1]; rfl
  · rw [h.1]; decide

/-! ## C17: initialisation contract -/

/-- C17, refuted as stated: the status `reassembler_init` returns for an absent buffer and
for a zero capacity is REASSEMBLER_NOT_INIT, the very status `reassembler_reset` and
`reassembler_add_chunk` return for a reassembler that is not initialised; it is not a
status of its own. -/
theorem init_failure_status_is_not_init :
    (reassembler_init reassembler_blank none 4).2 = REASSEMBLER_NOT_INIT ∧
    (reassembler_init reassembler_blank (some zero_mem) 0).2 = REASSEMBLER_NOT_INIT ∧
    (reassembler_reset reassembler_blank).2 = REASSEMBLER_NOT_INIT ∧
    (reassembler_add_chunk 32 reassembler_blank (some (bytes [0, 1])) 2).2
      = REASSEMBLER_NOT_INIT := by
  decide

/-- C17, amended: `reassembler_init` fails exactly when the destination buffer is absent or
the capacity is zero; it then returns REASSEMBLER_NOT_INIT and leaves the reassembler
unchanged.  Otherwise it returns REASSEMBLER_INIT and the reassembler holds the buffer and
the capacity, with `current_size`, the expected index and the terminal flag zero and
`initialized` set to 1. -/
theorem init_contract (r : reassembler_t) (data_buffer : Option Mem) (buffer_max_size : Nat) :
    ((data_buffer = none ∨ buffer_max_size = 0) →
      reassembler_init r data_buffer buffer_max_size = (r, REASSEMBLER_NOT_INIT)) ∧
    (∀ buf : Mem, data_buffer = some buf → buffer_max_size ≠ 0 →
      reassembler_init r data_buffer buffer_max_size =
        ({ data_buffer := buf, buffer_max_size := buffer_max_size, current_size := 0,
           last_index_received := 0, last_chunk_received := 0, initialized := 1 },
          REASSEMBLER_INIT)) ∧
    ((reassembler_init r data_buffer buffer_max_size).2 = REASSEMBLER_NOT_INIT ↔
      (data_buffer = none ∨ buffer_max_size = 0)) ∧
    ((reassembler_init r data_buffer buffer_max_size).2 = REASSEMBLER_NOT_INIT ∨
      (reassembler_init r data_buffer buffer_max_size).2 = REASSEMBLER_INIT) := by
  cases data_buffer with
  | none => simp [reassembler_init]
  | some buf =>
    by_cases h : buffer_max_size = 0
    · simp [reassembler_init, h]
    · simp [reassembler_init, h]

/-! ## C18: drained fragmenter -/

/-- C18: `fragmenter_has_more` is non-zero (it is 1) exactly when `position < length`;
when it is 0, `fragmenter_next` returns 0 for every output capacity and returns the
fragmenter (position and index counter included) and the output buffer unchanged; and it
is 0 right after `fragmenter_init` on an empty message. -/
theorem drained_fragmenter (w C : Nat) (f f0 : fragmenter_t) (buf data : Mem) :
    (fragmenter_has_more f = 1 ↔ f.position < f.length) ∧
    (fragmenter_has_more f ≠ 0 ↔ f.position < f.length) ∧
    (fragmenter_has_more f = 0 → fragmenter_next w f buf C = (f, buf, 0)) ∧
    fragmenter_has_more (fragmenter_init f0 data 0) = 0 ∧
    fragmenter_next w (fragmenter_init f0 data 0) buf C = (fragmenter_init f0 data 0, buf, 0) := by
  refine ⟨?_, ?_, fun h => fragmenter_next_drained w C f buf h, ?_, ?_⟩
  · by_cases h : f.position < f.length <;> simp [fragmenter_has_more, h]
  · by_cases h : f.position < f.length <;> simp [fragmenter_has_more, h]
  · simp [fragmenter_has_more, fragmenter_init]
  · exact fragmenter_next_drained w C _ buf (by simp [fragmenter_has_more, fragmenter_init])

/-! ## C16: ceiling of 255 regular chunks -/

theorem add_chunk_index_step (w : Nat) (r : reassembler_t) (chunk : Mem) (chunk_len : Nat)
    (h : r.last_index_received ≤ 255) :
    r.last_index_received ≤ (reassembler_add_chunk w r (some chunk) chunk_len).1.last_index_received ∧
      (reassembler_add_chunk w r (some chunk) chunk_len).1.last_index_received ≤ 255 ∧
      ((reassembler_add_chunk w r (some chunk) chunk_len).2 = REASSEMBLER_INCOMPLETE →
        (reassembler_add_chunk w r (some chunk) chunk_len).1.last_index_received
          = r.last_index_received + 1) := by
  unfold reassembler_add_chunk add_chunk_copy
  dsimp only
  split_ifs
  all_goals simp_all
  all_goals omega

theorem add_chunks_index_bound (w : Nat) (chunks : List (Mem × Nat)) :
    ∀ r : reassembler_t, r.last_index_received ≤ 255 →
      (add_chunks w r chunks).2.count REASSEMBLER_INCOMPLETE + r.last_index_received
          ≤ (add_chunks w r chunks).1.last_index_received ∧
        (add_chunks w r chunks).1.last_index_received ≤ 255 := by
  induction chunks with
  | nil => intro r h; simpa [add_chunks] using h
  | cons c rest ih =>
    intro r h
    obtain ⟨h1, h2, h3⟩ := add_chunk_index_step w r c.1 c.2 h
    obtain ⟨h4, h5⟩ := ih (reassembler_add_chunk w r (some c.1) c.2).1 h2
    rw [add_chunks_cons]
    refine ⟨?_, h5⟩
    by_cases hc : (reassembler_add_chunk w r (some c.1) c.2).2 = REASSEMBLER_INCOMPLETE
    · have h6 := h3 hc
      simp only [List.count_cons, hc, beq_self_eq_true, if_true]
      omega
    · have hne : ((reassembler_add_chunk w r (some c.1) c.2).2 == REASSEMBLER_INCOMPLETE)
          = false := by simpa using hc
      simp only [List.count_cons, hne]
      simp only [Bool.false_eq_true, if_false]
      omega

theorem add_chunk_at_ceiling (w : Nat) (r : reassembler_t) (chunk : Mem) (chunk_len : Nat)
    (hinit : r.initialized ≠ 0) (hidx : r.last_index_received = 255) (hne : chunk 0 ≠ 255)
    (hlen : 1 ≤ chunk_len) :
    reassembler_add_chunk w r (some chunk) chunk_len =
      (r, if r.last_chunk_received = 0 then REASSEMBLER_SEQUENCE_ERROR
          else REASSEMBLER_LAST_CHUNK_ALREADY_RECEIVED) := by
  have hnl : ¬ chunk_len < 1 := by omega
  by_cases hflag : r.last_chunk_received = 0
  · simp [reassembler_add_chunk, hinit, hflag, hnl, hne, hidx, CHUNK_HEADER_SIZE]
  · simp [reassembler_add_chunk, hinit, hflag]

theorem synced_last_step_fields (w C : Nat) (data : Mem) (L cap : Nat) (dest : Mem)
    (pos j : Nat) (s : link_t) (hC : 2 ≤ C) (hC256 : C ≤ 256) (hCw : C < 2 ^ w)
    (hL : L < 2 ^ 32) (hcapw : cap < 2 ^ w) (hs : Synced data L cap dest pos j s)
    (hmore : pos < L) (hlast : L ≤ pos + (C - 1)) (hfit : L ≤ cap) :
    (transfer_step w C s).reassembler.last_index_received = j ∧
      (transfer_step w C s).reassembler.last_chunk_received = 1 ∧
      (transfer_step w C s).reassembler.initialized = 1 := by
  obtain ⟨hd, hlen, hp, hi, hmax, hcur, hidx, hflag, hinit, hlow, hhigh, hst⟩ := hs
  have hnext := fragmenter_next_last w C s.fragmenter s.buffer hC hC256 hCw
    (by rw [hlen]; exact hL) (by rw [hp, hlen]; exact hmore) (by rw [hp, hlen]; exact hlast)
  have hn0 : s.fragmenter.length - s.fragmenter.position + 1 ≠ 0 := by omega
  have hadd := add_chunk_accept_last w s.reassembler
    (memcpy (store s.buffer 0 255) 1 s.fragmenter.data s.fragmenter.position
      (s.fragmenter.length - s.fragmenter.position))
    (s.fragmenter.length - s.fragmenter.position + 1) (by omega) hflag (by omega)
    (chunk_header _ _ _ _ _) (by omega) (by rw [hmax]; exact hcapw)
  rw [transfer_step_eq w C s _ _ _ _ _ hnext hn0 hadd]
  exact ⟨hidx, rfl, hinit⟩

/-- C16, refuted as stated: a 256-byte message at chunk capacity 2 is received in full by a
reassembler of capacity 256 (255 regular chunks, then the terminal one).  The expected index
is then 255, and the chunk `[0, 1]`, whose header is not 255, is rejected with
LAST_CHUNK_ALREADY_RECEIVED, not with SEQUENCE_ERROR. -/
theorem ceiling_rejection_after_terminal :
    (transfer 32 2 256 (ramp_link 256 256)).statuses =
      List.replicate 255 REASSEMBLER_INCOMPLETE ++ [REASSEMBLER_COMPLETE] ∧
    (transfer 32 2 256 (ramp_link 256 256)).reassembler.last_index_received = 255 ∧
    (reassembler_add_chunk 32 (transfer 32 2 256 (ramp_link 256 256)).reassembler
      (some (bytes [0, 1])) 2).2 = REASSEMBLER_LAST_CHUNK_ALREADY_RECEIVED := by
  have hs0 : Synced ramp 256 256 zero_mem 0 0 (ramp_link 256 256) :=
    synced_init fragmenter_blank zero_mem reassembler_blank ramp 256 zero_mem 256 (by omega)
  have hs := synced_transfer 32 2 ramp 256 256 zero_mem _ (by norm_num) (by norm_num)
    (by norm_num) (by norm_num) (by norm_num) hs0 255 (by norm_num) (by norm_num)
    (by norm_num)
  have h1 := synced_last_step 32 2 ramp 256 256 zero_mem _ _ _ (by norm_num) (by norm_num)
    (by norm_num) (by norm_num) (by norm_num) hs (by norm_num) (by norm_num) (by norm_num)
  have h2 := synced_last_step_fields 32 2 ramp 256 256 zero_mem _ _ _ (by norm_num)
    (by norm_num) (by norm_num) (by norm_num) (by norm_num) hs (by norm_num) (by norm_num)
    (by norm_num)
  rw [← transfer_succ, show (255 : Nat) + 1 = 256 from rfl] at h1 h2
  refine ⟨h1.1, h2.1, ?_⟩
  rw [add_chunk_some_after_last 32 _ _ _ (by rw [h2.2.2]; norm_num) (by rw [h2.2.1]; norm_num)]

/-- C16, amended: in any sequence of `reassembler_add_chunk` calls that starts with the
expected index at 0 (after init or reset), at most 255 calls are answered INCOMPLETE and
the expected index ends at most at 255; no call makes the expected index decrease or pass
255; and once it equals 255 an initialised reassembler rejects every chunk whose header is
not 255 and leaves the state unchanged, with SEQUENCE_ERROR while the terminal flag is
clear and with LAST_CHUNK_ALREADY_RECEIVED once it is set. -/
theorem regular_chunk_ceiling (w : Nat) (r : reassembler_t) (chunks : List (Mem × Nat))
    (hstart : r.last_index_received = 0) :
    (add_chunks w r chunks).2.count REASSEMBLER_INCOMPLETE ≤ 255 ∧
    (add_chunks w r chunks).2.count REASSEMBLER_INCOMPLETE
      ≤ (add_chunks w r chunks).1.last_index_received ∧
    (add_chunks w r chunks).1.last_index_received ≤ 255 ∧
    (∀ (r1 : reassembler_t) (chunk : Mem) (chunk_len : Nat), r1.last_index_received ≤ 255 →
      r1.last_index_received
          ≤ (reassembler_add_chunk w r1 (some chunk) chunk_len).1.last_index_received ∧
        (reassembler_add_chunk w r1 (some chunk) chunk_len).1.last_index_received ≤ 255) ∧
    (∀ (r1 : reassembler_t) (chunk : Mem) (chunk_len : Nat), r1.initialized ≠ 0 →
      r1.last_index_received = 255 → chunk 0 ≠ 255 → 1 ≤ chunk_len →
      reassembler_add_chunk w r1 (some chunk) chunk_len =
        (r1, if r1.last_chunk_received = 0 then REASSEMBLER_SEQUENCE_ERROR
             else REASSEMBLER_LAST_CHUNK_ALREADY_RECEIVED)) := by
  obtain ⟨h1, h2⟩ := add_chunks_index_bound w chunks r (by omega)
  refine ⟨by omega, by omega, h2, ?_, ?_⟩
  · intro r1 chunk chunk_len h
    have h3 := add_chunk_index_step w r1 chunk chunk_len h
    exact ⟨h3.1, h3.2.1⟩
  · intro r1 chunk chunk_len hinit hidx hne hlen
    exact add_chunk_at_ceiling w r1 chunk chunk_len hinit hidx hne hlen

/-- C16 at a concrete input: on a fresh reassembler of capacity 4 the calls with `[0, 1]`,
`[1, 2]`, `[1, 3]` give two INCOMPLETE answers and leave the expected index at 2. -/
theorem regular_chunk_ceiling_witness :
    (add_chunks 32 (reassembler_fresh 4)
      [(bytes [0, 1], 2), (bytes [1, 2], 2), (bytes [1, 3], 2)]).2.count
        REASSEMBLER_INCOMPLETE ≤ 255 ∧
    (add_chunks 32 (reassembler_fresh 4)
      [(bytes [0, 1], 2), (bytes [1, 2], 2), (bytes [1, 3], 2)]).1.last_index_received
        ≤ 255 := by
  have h := regular_chunk_ceiling 32 (reassembler_fresh 4)
    [(bytes [0, 1], 2), (bytes [1, 2], 2), (bytes [1, 3], 2)] (by decide)
  exact ⟨h.1, h.2.2.1⟩

/-! ## C19: bounded round trip -/

theorem chunk_count_bound (L C : Nat) (hC : 2 ≤ C) (hL : 1 ≤ L)
    (hcount : chunk_count L C ≤ 256) : L ≤ 256 * (C - 1) := by
  have hp : 0 < C - 1 := by omega
  obtain ⟨-, -, hk⟩ := chunk_count_pos L C hC hL
  have h1 : (L - 1) / (C - 1) < 256 := by omega
  rw [Nat.div_lt_iff_lt_mul hp] at h1
  omega

/-- C19: for a message of `L ≥ 1` bytes, a chunk capacity `2 ≤ C ≤ 256` with
`chunk_count L C ≤ 256` (at most 255 regular chunks) and a reassembler freshly initialised
with a capacity of at least `L`, the driver loop feeds exactly `chunk_count L C` chunks:
all but the last are answered INCOMPLETE, the last COMPLETE; the fragmenter is then
drained, `current_size` is `L` and the first `L` bytes of the destination are the message,
while the bytes from offset `L` on are untouched. -/
theorem roundtrip_bounded (w C L cap : Nat) (data dest out : Mem) (f0 : fragmenter_t)
    (r0 : reassembler_t) (hL : 1 ≤ L) (hC : 2 ≤ C) (hC256 : C ≤ 256)
    (hcount : chunk_count L C ≤ 256) (hcap : L ≤ cap) (hCw : C < 2 ^ w)
    (hcapw : cap < 2 ^ w) :
    (transfer w C (chunk_count L C) (link_init f0 out r0 data L dest cap)).statuses =
        List.replicate (chunk_count L C - 1) REASSEMBLER_INCOMPLETE ++
          [REASSEMBLER_COMPLETE] ∧
      (transfer w C (chunk_count L C)
        (link_init f0 out r0 data L dest cap)).reassembler.current_size = L ∧
      (∀ i, i < L →
        (transfer w C (chunk_count L C)
          (link_init f0 out r0 data L dest cap)).reassembler.data_buffer i = data i) ∧
      (∀ i, L ≤ i →
        (transfer w C (chunk_count L C)
          (link_init f0 out r0 data L dest cap)).reassembler.data_buffer i = dest i) ∧
      fragmenter_has_more
        (transfer w C (chunk_count L C) (link_init f0 out r0 data L dest cap)).fragmenter
          = 0 :=
  link_roundtrip w C L cap data dest out f0 r0 hC hC256 hCw
    (chunk_count_bound L C hC hL hcount) hL hcap hcapw (chunk_count L C) (Nat.le_refl _)

/-- C19 at a concrete input: 510 bytes at chunk capacity 256 (payload 255) travel as two
chunks answered INCOMPLETE and COMPLETE, and the destination of capacity 600 then holds
510 bytes, the last of them byte 509 of the message. -/
theorem roundtrip_bounded_witness :
    (transfer 32 256 2 (link_init fragmenter_blank zero_mem reassembler_blank ramp 510
        zero_mem 600)).statuses = [REASSEMBLER_INCOMPLETE, REASSEMBLER_COMPLETE] ∧
    (transfer 32 256 2 (link_init fragmenter_blank zero_mem reassembler_blank ramp 510
        zero_mem 600)).reassembler.current_size = 510 ∧
    (transfer 32 256 2 (link_init fragmenter_blank zero_mem reassembler_blank ramp 510
        zero_mem 600)).reassembler.data_buffer 509 = ramp 509 := by
  have h := roundtrip_bounded 32 256 510 600 ramp zero_mem zero_mem fragmenter_blank
    reassembler_blank (by decide) (by decide) (by decide) (by decide) (by decide) (by decide)
    (by decide)
  exact ⟨h.1, h.2.1, h.2.2.1 509 (by decide)⟩

/-! ## Auxiliary lemmas on the sending side -/

theorem chunk_bytes (buf data : Mem) (h pos n : Nat) :
    (List.range (n + 1)).map (memcpy (store buf 0 h) 1 data pos n) =
      h :: (List.range n).map (fun t => data (pos + t)) := by
  rw [List.range_succ_eq_map, List.map_cons, chunk_header, List.map_map]
  congr 1
  apply List.map_congr_left
  intro t ht
  have hlt : t < n := List.mem_range.mp ht
  show memcpy (store buf 0 h) 1 data pos n (t + 1) = data (pos + t)
  rw [Nat.add_comm t 1]
  exact chunk_payload buf data h pos n t hlt

theorem emit_step_eq (w C : Nat) (s : emitter_t) (f1 : fragmenter_t) (buf1 : Mem) (n : Nat)
    (hnext : fragmenter_next w s.fragmenter s.buffer C = (f1, buf1, n)) (hn : n ≠ 0) :
    emit_step w C s =
      { fragmenter := f1, buffer := buf1, chunks := s.chunks ++ [(List.range n).map buf1] } := by
  simp [emit_step, hnext, hn]

theorem emit_succ (w C n : Nat) (s : emitter_t) :
    emit w C (n + 1) s = emit_step w C (emit w C n s) := by
  simp only [emit]
  exact Function.iterate_succ_apply' _ _ _

theorem emit_add (w C m n : Nat) (s : emitter_t) :
    emit w C (m + n) s = emit w C m (emit w C n s) := by
  simp only [emit]
  exact Function.iterate_add_apply _ _ _ _

theorem emit_step_drained (w C : Nat) (s : emitter_t)
    (h : fragmenter_has_more s.fragmenter = 0) : emit_step w C s = s := by
  simp [emit_step, fragmenter_next_drained w C s.fragmenter s.buffer h]

theorem emit_drained (w C n : Nat) (s : emitter_t)
    (h : fragmenter_has_more s.fragmenter = 0) : emit w C n s = s := by
  simp only [emit]
  exact Function.iterate_fixed (emit_step_drained w C s h) n

theorem emitted_init (f0 : fragmenter_t) (out data : Mem) (L C : Nat) :
    Emitted data L C 0 (emit_init f0 out data L) := by
  simp [Emitted, emit_init, fragmenter_init]

theorem emitted_step (w C : Nat) (data : Mem) (L j : Nat) (s : emitter_t)
    (hC : 2 ≤ C) (hC256 : C ≤ 256) (hCw : C < 2 ^ w) (hL : L < 2 ^ 32)
    (hs : Emitted data L C j s) (hpos : (j + 1) * (C - 1) < L) :
    Emitted data L C (j + 1) (emit_step w C s) := by
  obtain ⟨hd, hlen, hp, hi, hch⟩ := hs
  have hmul : (j + 1) * (C - 1) = j * (C - 1) + (C - 1) := Nat.succ_mul j (C - 1)
  have hnext := fragmenter_next_regular w C s.fragmenter s.buffer hC hC256 hCw
    (by rw [hlen]; exact hL) (by rw [hp, hlen, ← hmul]; exact hpos)
  have hC0 : C ≠ 0 := by omega
  have hC1 : C = (C - 1) + 1 := by omega
  rw [emit_step_eq w C s _ _ _ hnext hC0]
  refine ⟨hd, hlen, by simp only [hp, hmul], by simp only [hi]; omega, ?_⟩
  show s.chunks ++ [(List.range C).map _] = _
  rw [List.range_succ, List.map_append, List.map_singleton, hch]
  congr 2
  conv_lhs => rw [hC1]
  rw [show C - 1 + 1 - 1 = C - 1 from by omega, chunk_bytes, hi, hd, hp]
  rfl

theorem emitted_emit (w C : Nat) (data : Mem) (L : Nat) (s : emitter_t)
    (hC : 2 ≤ C) (hC256 : C ≤ 256) (hCw : C < 2 ^ w) (hL : L < 2 ^ 32)
    (hs : Emitted data L C 0 s) :
    ∀ j, j * (C - 1) < L → Emitted data L C j (emit w C j s) := by
  intro j
  induction j with
  | zero => intro _; simpa [emit] using hs
  | succ j ih =>
    intro hlt
    have hmul : (j + 1) * (C - 1) = j * (C - 1) + (C - 1) := Nat.succ_mul j (C - 1)
    rw [emit_succ]
    exact emitted_step w C data L j _ hC hC256 hCw hL (ih (by omega)) hlt

theorem emitted_last_step (w C : Nat) (data : Mem) (L j : Nat) (s : emitter_t)
    (hC : 2 ≤ C) (hC256 : C ≤ 256) (hCw : C < 2 ^ w) (hL : L < 2 ^ 32)
    (hs : Emitted data L C j s) (hmore : j * (C - 1) < L)
    (hlast : L ≤ j * (C - 1) + (C - 1)) :
    (emit_step w C s).chunks =
        (List.range j).map (regular_chunk data C) ++ [terminal_chunk data L C j] ∧
      fragmenter_has_more (emit_step w C s).fragmenter = 0 := by
  obtain ⟨hd, hlen, hp, hi, hch⟩ := hs
  have hnext := fragmenter_next_last w C s.fragmenter s.buffer hC hC256 hCw
    (by rw [hlen]; exact hL) (by rw [hp, hlen]; exact hmore) (by rw [hp, hlen]; exact hlast)
  have hn0 : s.fragmenter.length - s.fragmenter.position + 1 ≠ 0 := by omega
  rw [emit_step_eq w C s _ _ _ hnext hn0]
  refine ⟨?_, by simp [fragmenter_has_more]⟩
  show s.chunks ++ [(List.range _).map _] = _
  rw [chunk_bytes, hch, hd, hp, hlen]
  rfl

theorem emit_all (w C L : Nat) (data out : Mem) (f0 : fragmenter_t) (hC : 2 ≤ C)
    (hC256 : C ≤ 256) (hCw : C < 2 ^ w) (hL1 : 1 ≤ L) (hL : L < 2 ^ 32) (n : Nat)
    (hn : chunk_count L C ≤ n) :
    (emit w C n (emit_init f0 out data L)).chunks =
        (List.range (chunk_count L C - 1)).map (regular_chunk data C) ++
          [terminal_chunk data L C (chunk_count L C - 1)] ∧
      fragmenter_has_more (emit w C n (emit_init f0 out data L)).fragmenter = 0 := by
  obtain ⟨hlt, hle, hk⟩ := chunk_count_pos L C hC hL1
  have hs := emitted_emit w C data L _ hC hC256 hCw hL (emitted_init f0 out data L C)
    ((L - 1) / (C - 1)) hlt
  have hfin := emitted_last_step w C data L _ _ hC hC256 hCw hL hs hlt hle
  rw [← emit_succ] at hfin
  have hsplit : n = (n - ((L - 1) / (C - 1) + 1)) + ((L - 1) / (C - 1) + 1) := by omega
  have hstay : emit w C n (emit_init f0 out data L) =
      emit w C ((L - 1) / (C - 1) + 1) (emit_init f0 out data L) := by
    rw [hsplit, emit_add, emit_drained _ _ _ _ hfin.2]
  rw [hstay, hk, Nat.add_sub_cancel]
  exact hfin

theorem emit_before (w C L : Nat) (data out : Mem) (f0 : fragmenter_t) (hC : 2 ≤ C)
    (hC256 : C ≤ 256) (hCw : C < 2 ^ w) (hL1 : 1 ≤ L) (hL : L < 2 ^ 32) (n : Nat)
    (hn : n < chunk_count L C) :
    fragmenter_has_more (emit w C n (emit_init f0 out data L)).fragmenter = 1 ∧
      (emit w C n (emit_init f0 out data L)).chunks.length = n := by
  obtain ⟨hlt, hle, hk⟩ := chunk_count_pos L C hC hL1
  have hnj : n ≤ (L - 1) / (C - 1) := by omega
  have hmul : n * (C - 1) ≤ (L - 1) / (C - 1) * (C - 1) := Nat.mul_le_mul_right _ hnj
  obtain ⟨-, hlen, hp, -, hch⟩ := emitted_emit w C data L _ hC hC256 hCw hL
    (emitted_init f0 out data L C) n (by omega)
  have hpos : (emit w C n (emit_init f0 out data L)).fragmenter.position <
      (emit w C n (emit_init f0 out data L)).fragmenter.length := by
    rw [hp, hlen]; omega
  exact ⟨by simp [fragmenter_has_more, hpos], by simp [hch]⟩

theorem regular_chunk_length (data : Mem) (C i : Nat) (hC : 1 ≤ C) :
    (regular_chunk data C i).length = C := by
  simp only [regular_chunk, List.length_cons, List.length_map, List.length_range]
  omega

theorem regular_payloads (data : Mem) (C : Nat) :
    ∀ j, (((List.range j).map (regular_chunk data C)).map List.tail).flatten =
      (List.range (j * (C - 1))).map data := by
  intro j
  induction j with
  | zero => simp
  | succ j ih =>
    rw [List.range_succ, List.map_append, List.map_append, List.flatten_append, ih,
      Nat.succ_mul, List.range_add, List.map_append, List.map_map]
    simp [regular_chunk, Function.comp_def]

theorem all_payloads (data : Mem) (L C j : Nat) (hj : j * (C - 1) ≤ L) :
    ((((List.range j).map (regular_chunk data C)) ++ [terminal_chunk data L C j]).map
        List.tail).flatten = (List.range L).map data := by
  have hL : L = j * (C - 1) + (L - j * (C - 1)) := by omega
  rw [List.map_append, List.flatten_append, regular_payloads]
  conv_rhs => rw [hL, List.range_add, List.map_append, List.map_map]
  simp [terminal_chunk, Function.comp_def]

theorem fragmenter_next_advances (w C : Nat) (f : fragmenter_t) (buf : Mem) (hC : 2 ≤ C)
    (hC256 : C ≤ 256) (hCw : C < 2 ^ w) (hL : f.length < 2 ^ 32)
    (hmore : f.position < f.length) :
    f.position < (fragmenter_next w f buf C).1.position ∧
      (fragmenter_next w f buf C).2.2 ≠ 0 := by
  by_cases hlast : f.length ≤ f.position + (C - 1)
  · rw [fragmenter_next_last w C f buf hC hC256 hCw hL hmore hlast]
    exact ⟨hmore, by simp⟩
  · rw [fragmenter_next_regular w C f buf hC hC256 hCw hL (by omega)]
    exact ⟨by dsimp only; omega, by dsimp only; omega⟩

theorem fragmenter_next_emits (w C : Nat) (f : fragmenter_t) (buf : Mem)
    (hmore : f.position < f.length) :
    (fragmenter_next w f buf C).2.2 ≠ 0 ∧
      (fragmenter_next w f buf C).1.length = f.length ∧
      (fragmenter_next w f buf C).2.1 0 =
        (if fragmenter_has_more (fragmenter_next w f buf C).1 = 0 then 255 else f.index) ∧
      (fragmenter_next w f buf C).1.index =
        (if fragmenter_has_more (fragmenter_next w f buf C).1 = 0 then f.index
          else (f.index + 1) % 256) ∧
      (fragmenter_next w f buf C).1.position =
        (f.position + ((fragmenter_next w f buf C).2.2 - 1)) % 2 ^ 32 ∧
      (fragmenter_next w f buf C).2.2 - 1 ≤ f.length - f.position := by
  have hm : fragmenter_has_more f ≠ 0 := by simp [fragmenter_has_more, hmore]
  unfold fragmenter_next
  rw [if_neg hm]
  dsimp only
  generalize hmax : ((C + 2 ^ w - CHUNK_HEADER_SIZE) % 2 ^ w) % 2 ^ 32 = mx
  generalize hcl : (if (f.length - f.position) % 2 ^ 32 > mx then mx
    else (f.length - f.position) % 2 ^ 32) % 256 = cl
  have hle : cl ≤ f.length - f.position := by
    rw [← hcl]
    refine Nat.le_trans (Nat.mod_le _ _) ?_
    split_ifs with h
    · exact Nat.le_trans (Nat.le_of_lt h) (Nat.mod_le _ _)
    · exact Nat.mod_le _ _
  refine ⟨by simp [CHUNK_HEADER_SIZE], rfl, ?_, ?_, by simp [CHUNK_HEADER_SIZE],
    by simpa [CHUNK_HEADER_SIZE] using hle⟩
  · by_cases hl : (f.position + cl) % 2 ^ 32 ≥ f.length
    · have : ¬ (f.position + cl) % 2 ^ 32 < f.length := by omega
      simp [fragmenter_has_more, hl, this, memcpy, store, CHUNK_HEADER_SIZE]
    · have : (f.position + cl) % 2 ^ 32 < f.length := by omega
      simp [fragmenter_has_more, hl, this, memcpy, store, CHUNK_HEADER_SIZE]
  · by_cases hl : (f.position + cl) % 2 ^ 32 ≥ f.length
    · have : ¬ (f.position + cl) % 2 ^ 32 < f.length := by omega
      simp [fragmenter_has_more, hl, this]
    · have : (f.position + cl) % 2 ^ 32 < f.length := by omega
      simp [fragmenter_has_more, hl, this]

theorem fragmenter_next_payload_le (w C : Nat) (f : fragmenter_t) (buf : Mem)
    (hC : 1 ≤ C) (hCw : C < 2 ^ w) :
    (fragmenter_next w f buf C).2.2 - 1 ≤ C - 1 ∧
      (fragmenter_next w f buf C).1.position ≤ f.position + (C - 1) ∧
      (fragmenter_next w f buf C).1.length = f.length := by
  by_cases hm : fragmenter_has_more f = 0
  · rw [fragmenter_next_drained w C f buf hm]
    exact ⟨by simp, by simp, rfl⟩
  · have hsub : (C + 2 ^ w - CHUNK_HEADER_SIZE) % 2 ^ w = C - 1 := header_sub w C hC hCw
    unfold fragmenter_next
    rw [if_neg hm]
    dsimp only
    rw [hsub]
    generalize hcl : (if (f.length - f.position) % 2 ^ 32 > (C - 1) % 2 ^ 32 then
      (C - 1) % 2 ^ 32 else (f.length - f.position) % 2 ^ 32) % 256 = cl
    have hle : cl ≤ C - 1 := by
      rw [← hcl]
      refine Nat.le_trans (Nat.mod_le _ _) ?_
      split_ifs with h
      · exact Nat.mod_le _ _
      · exact Nat.le_trans (Nat.le_of_not_gt h) (Nat.mod_le _ _)
    refine ⟨by simpa [CHUNK_HEADER_SIZE] using hle, ?_, rfl⟩
    exact Nat.le_trans (Nat.mod_le _ _) (by omega)

theorem headD_range_map (g : Nat → Nat) (n : Nat) (hn : n ≠ 0) :
    ((List.range n).map g).headD 0 = g 0 := by
  cases n with
  | zero => exact absurd rfl hn
  | succ m => rw [List.range_succ_eq_map]; rfl

theorem headed_init (f0 : fragmenter_t) (out data : Mem) (L C : Nat) :
    Headed L C 0 (emit_init f0 out data L) := by
  simp [Headed, headers, emit_init, fragmenter_init]

theorem headed_step (w C L j : Nat) (s : emitter_t) (hC : 1 ≤ C) (hCw : C < 2 ^ w)
    (hs : Headed L C j s) (hpos : (j + 1) * (C - 1) < L) :
    Headed L C (j + 1) (emit_step w C s) ∧
      fragmenter_has_more (emit_step w C s).fragmenter = 1 := by
  obtain ⟨hlen, hp, hi, hh⟩ := hs
  have hmul : (j + 1) * (C - 1) = j * (C - 1) + (C - 1) := Nat.succ_mul j (C - 1)
  have hmore : s.fragmenter.position < s.fragmenter.length := by rw [hlen]; omega
  obtain ⟨hn0, -, hhead, hidx, -, -⟩ := fragmenter_next_emits w C s.fragmenter s.buffer hmore
  obtain ⟨-, hple, hlen2⟩ := fragmenter_next_payload_le w C s.fragmenter s.buffer hC hCw
  have hmore2 : (fragmenter_next w s.fragmenter s.buffer C).1.position <
      (fragmenter_next w s.fragmenter s.buffer C).1.length := by
    rw [hlen2, hlen]; omega
  have hhm : fragmenter_has_more (fragmenter_next w s.fragmenter s.buffer C).1 = 1 := by
    simp [fragmenter_has_more, hmore2]
  have hne : ¬ fragmenter_has_more (fragmenter_next w s.fragmenter s.buffer C).1 = 0 := by
    rw [hhm]; omega
  rw [if_neg hne] at hhead hidx
  rw [emit_step_eq w C s (fragmenter_next w s.fragmenter s.buffer C).1
    (fragmenter_next w s.fragmenter s.buffer C).2.1
    (fragmenter_next w s.fragmenter s.buffer C).2.2 rfl hn0]
  have hidx2 : (fragmenter_next w s.fragmenter s.buffer C).1.index = (j + 1) % 256 := by
    rw [hidx, hi]; omega
  have hpos2 : (fragmenter_next w s.fragmenter s.buffer C).1.position ≤ (j + 1) * (C - 1) := by
    rw [hmul]; omega
  refine ⟨⟨by rw [← hlen]; exact hlen2, hpos2, hidx2, ?_⟩, hhm⟩
  show List.map _ (s.chunks ++ [_]) = _
  rw [List.map_append, List.range_succ, List.map_append, List.map_singleton,
    List.map_singleton, headD_range_map _ _ hn0, hhead, hi]
  exact congrArg (· ++ [j % 256]) hh

theorem headed_emit (w C L : Nat) (s : emitter_t) (hC : 1 ≤ C) (hCw : C < 2 ^ w)
    (hs : Headed L C 0 s) :
    ∀ j, j * (C - 1) < L → Headed L C j (emit w C j s) ∧
      (j ≠ 0 → fragmenter_has_more (emit w C j s).fragmenter = 1) := by
  intro j
  induction j with
  | zero => intro _; exact ⟨by simpa [emit] using hs, fun h => absurd rfl h⟩
  | succ j ih =>
    intro hlt
    have hmul : (j + 1) * (C - 1) = j * (C - 1) + (C - 1) := Nat.succ_mul j (C - 1)
    rw [emit_succ]
    have h := headed_step w C L j _ hC hCw (ih (by omega)).1 hlt
    exact ⟨h.1, fun _ => h.2⟩

theorem range_mod_256 (j : Nat) (hj : j ≤ 256) :
    (List.range j).map (fun i => i % 256) = List.range j := by
  have h : ∀ i ∈ List.range j, (fun i => i % 256) i = id i := by
    intro i hi
    have := List.mem_range.mp hi
    exact Nat.mod_eq_of_lt (by omega)
  rw [List.map_congr_left h, List.map_id]

/-! ## C14: index collision -/

/-- C14: for a chunk capacity `C ≥ 2` (payload capacity `p = C - 1`) and a message longer
than `256 * p` bytes, the first 255 chunks `fragmenter_next` emits carry the headers
0, 1, ..., 254 and the 256th chunk carries the header byte 255, the value of the terminal
sentinel, although `fragmenter_has_more` is still 1 after it. -/
theorem index_collision (w C L : Nat) (data out : Mem) (f0 : fragmenter_t) (hC : 2 ≤ C)
    (hCw : C < 2 ^ w) (hlong : 256 * (C - 1) < L) :
    headers (emit w C 255 (emit_init f0 out data L)) = List.range 255 ∧
      headers (emit w C 256 (emit_init f0 out data L)) = List.range 255 ++ [255] ∧
      (emit w C 256 (emit_init f0 out data L)).chunks.length = 256 ∧
      fragmenter_has_more (emit w C 256 (emit_init f0 out data L)).fragmenter = 1 := by
  have h0 := headed_init f0 out data L C
  have h255 := headed_emit w C L _ (by omega) hCw h0 255 (by omega)
  have h256 := headed_emit w C L _ (by omega) hCw h0 256 (by omega)
  have e255 := range_mod_256 255 (by omega)
  have e256 := range_mod_256 256 (by omega)
  have hh : headers (emit w C 256 (emit_init f0 out data L)) = List.range 256 := by
    rw [h256.1.2.2.2, e256]
  refine ⟨by rw [h255.1.2.2.2, e255], by rw [hh, List.range_succ], ?_, h256.2 (by omega)⟩
  have hl := congrArg List.length hh
  simpa [headers] using hl

/-- C14 at a concrete input: a 300-byte message at chunk capacity 2; after 256 calls the
fragmenter still has more, and the 256 headers end with 254, 255. -/
theorem index_collision_witness :
    headers (emit 32 2 256 (emit_init fragmenter_blank zero_mem ramp 300)) =
      List.range 255 ++ [255] ∧
    fragmenter_has_more (emit 32 2 256 (emit_init fragmenter_blank zero_mem ramp 300)).fragmenter
      = 1 := by
  have h := index_collision 32 2 300 ramp zero_mem fragmenter_blank (by decide) (by decide)
    (by decide)
  exact ⟨h.2.1, h.2.2.2⟩

/-! ## C13: header assignment -/

/-- C13, refuted as stated: after 255 regular chunks of a 257-byte message at chunk
capacity 2 the index counter is 255; the next call emits one payload byte (position 255
plus 1 is below the length 257), yet its header byte is 255, and the counter goes to 0,
not to 256. -/
theorem header_255_without_exhausting :
    (emit 32 2 255 (emit_init fragmenter_blank zero_mem ramp 257)).fragmenter.position = 255 ∧
    (emit 32 2 255 (emit_init fragmenter_blank zero_mem ramp 257)).fragmenter.length = 257 ∧
    (emit 32 2 255 (emit_init fragmenter_blank zero_mem ramp 257)).fragmenter.index = 255 ∧
    (fragmenter_next 32 (emit 32 2 255 (emit_init fragmenter_blank zero_mem ramp 257)).fragmenter
      zero_mem 2).2.2 = 2 ∧
    (fragmenter_next 32 (emit 32 2 255 (emit_init fragmenter_blank zero_mem ramp 257)).fragmenter
      zero_mem 2).2.1 0 = 255 ∧
    (fragmenter_next 32 (emit 32 2 255 (emit_init fragmenter_blank zero_mem ramp 257)).fragmenter
      zero_mem 2).1.index = 0 := by
  obtain ⟨-, hlen, hp, hi, -⟩ := emitted_emit 32 2 ramp 257 _ (by norm_num) (by norm_num)
    (by norm_num) (by norm_num) (emitted_init fragmenter_blank zero_mem ramp 257 2) 255
    (by norm_num)
  have hp2 : (emit 32 2 255 (emit_init fragmenter_blank zero_mem ramp 257)).fragmenter.position
      = 255 := by rw [hp]
  have hi2 : (emit 32 2 255 (emit_init fragmenter_blank zero_mem ramp 257)).fragmenter.index
      = 255 := by rw [hi]
  have hnext := fragmenter_next_regular 32 2
    (emit 32 2 255 (emit_init fragmenter_blank zero_mem ramp 257)).fragmenter zero_mem
    (by norm_num) (by norm_num) (by norm_num) (by rw [hlen]; norm_num)
    (by rw [hp2, hlen]; norm_num)
  refine ⟨hp2, hlen, hi2, by rw [hnext], ?_, ?_⟩
  · rw [hnext]
    dsimp only
    rw [chunk_header, hi2]
  · rw [hnext]
    dsimp only
    rw [hi2]

/-- C13, amended: a call of `fragmenter_next` on a fragmenter with unread bytes (of a
message shorter than 2^32 bytes) emits a chunk and advances `position` by its payload
length; when that payload exhausts the source (`position + payload ≥ length`) the header
byte is 255 and the index counter is unchanged, otherwise the header byte is the current
index counter and the counter is incremented by one modulo 256.  Hence after
`fragmenter_init`, at a chunk capacity `2 ≤ C ≤ 256`, regular chunk number `i` (from 0)
carries `i mod 256`: 0, 1, ..., 254 for the first 255. -/
theorem header_assignment (w C : Nat) (f : fragmenter_t) (buf : Mem)
    (hmore : f.position < f.length) (hL32 : f.length < 2 ^ 32) :
    (fragmenter_next w f buf C).2.2 ≠ 0 ∧
    (fragmenter_next w f buf C).1.position = f.position + ((fragmenter_next w f buf C).2.2 - 1) ∧
    (f.length ≤ f.position + ((fragmenter_next w f buf C).2.2 - 1) →
      (fragmenter_next w f buf C).2.1 0 = 255 ∧
        (fragmenter_next w f buf C).1.index = f.index) ∧
    (f.position + ((fragmenter_next w f buf C).2.2 - 1) < f.length →
      (fragmenter_next w f buf C).2.1 0 = f.index ∧
        (fragmenter_next w f buf C).1.index = (f.index + 1) % 256) ∧
    (∀ (L : Nat) (data out : Mem) (f0 : fragmenter_t) (j : Nat), 2 ≤ C → C ≤ 256 →
      C < 2 ^ w → L < 2 ^ 32 → j * (C - 1) < L →
      headers (emit w C j (emit_init f0 out data L)) = (List.range j).map (fun i => i % 256) ∧
        (j ≤ 255 → headers (emit w C j (emit_init f0 out data L)) = List.range j)) := by
  obtain ⟨hn0, hlen, hhead, hidx, hpos, hle⟩ := fragmenter_next_emits w C f buf hmore
  have hL : f.length < 4294967296 := by simpa using hL32
  have hnw : (f.position + ((fragmenter_next w f buf C).2.2 - 1)) % 2 ^ 32 =
      f.position + ((fragmenter_next w f buf C).2.2 - 1) :=
    Nat.mod_eq_of_lt (by norm_num; omega)
  rw [hnw] at hpos
  refine ⟨hn0, hpos, ?_, ?_, ?_⟩
  · intro h
    have hm : fragmenter_has_more (fragmenter_next w f buf C).1 = 0 := by
      have : ¬ (fragmenter_next w f buf C).1.position < (fragmenter_next w f buf C).1.length := by
        rw [hpos, hlen]; omega
      simp [fragmenter_has_more, this]
    rw [if_pos hm] at hhead hidx
    exact ⟨hhead, hidx⟩
  · intro h
    have hm : ¬ fragmenter_has_more (fragmenter_next w f buf C).1 = 0 := by
      have : (fragmenter_next w f buf C).1.position < (fragmenter_next w f buf C).1.length := by
        rw [hpos, hlen]; exact h
      simp [fragmenter_has_more, this]
    rw [if_neg hm] at hhead hidx
    exact ⟨hhead, hidx⟩
  · intro L data out f0 j hC _ hCw _ hj
    have h := (headed_emit w C L _ (by omega) hCw (headed_init f0 out data L C) j hj).1.2.2.2
    exact ⟨h, fun hj255 => by rw [h, range_mod_256 j (by omega)]⟩

/-- C13 at a concrete input: the first call on a ten-byte message at chunk capacity 4
emits a chunk of 4 bytes with header 0 and moves the index counter to 1. -/
theorem header_assignment_witness :
    (fragmenter_next 32 (fragmenter_init fragmenter_blank ramp 10) zero_mem 4).2.2 ≠ 0 ∧
    (fragmenter_next 32 (fragmenter_init fragmenter_blank ramp 10) zero_mem 4).2.1 0 = 0 ∧
    (fragmenter_next 32 (fragmenter_init fragmenter_blank ramp 10) zero_mem 4).1.index
      = (0 + 1) % 256 := by
  have h := header_assignment 32 4 (fragmenter_init fragmenter_blank ramp 10) zero_mem
    (by decide) (by decide)
  have h2 := h.2.2.2.1 (by decide)
  exact ⟨h.1, h2.1, h2.2⟩

/-! ## C12: message length an exact multiple of the payload capacity -/

theorem chunk_count_multiple (C k : Nat) (hC : 2 ≤ C) (hk : 1 ≤ k) :
    chunk_count (k * (C - 1)) C = k ∧
      k * (C - 1) - (k - 1) * (C - 1) = C - 1 ∧ 1 ≤ k * (C - 1) := by
  obtain ⟨m, rfl⟩ : ∃ m, k = m + 1 := ⟨k - 1, by omega⟩
  have hp : 0 < C - 1 := by omega
  have hmul : (m + 1) * (C - 1) = m * (C - 1) + (C - 1) := Nat.succ_mul m (C - 1)
  have hL : 1 ≤ (m + 1) * (C - 1) := by omega
  obtain ⟨-, -, hkk⟩ := chunk_count_pos ((m + 1) * (C - 1)) C hC hL
  have hdiv : ((m + 1) * (C - 1) - 1) / (C - 1) = m :=
    Nat.div_eq_of_lt_le (by omega) (by omega)
  rw [hkk, hdiv]
  exact ⟨rfl, by rw [Nat.add_sub_cancel]; omega, hL⟩

/-- C12, refuted as stated: a six-byte message at chunk capacity 4 (payload capacity 3) is
emitted as the two chunks `[0, 0, 1, 2]` and `[255, 3, 4, 5]`, after which the fragmenter
is drained: the last chunk is terminal and carries three payload bytes, not zero, and the
last non-zero return value is 4, not 1. -/
theorem exact_multiple_last_chunk_is_full :
    (emit 32 4 2 (emit_init fragmenter_blank zero_mem ramp 6)).chunks =
      [[0, 0, 1, 2], [255, 3, 4, 5]] ∧
    fragmenter_has_more (emit 32 4 2 (emit_init fragmenter_blank zero_mem ramp 6)).fragmenter
      = 0 ∧
    (emit 32 4 3 (emit_init fragmenter_blank zero_mem ramp 6)).chunks =
      [[0, 0, 1, 2], [255, 3, 4, 5]] := by
  decide

/-- C12, amended: for a chunk capacity `2 ≤ C ≤ 256` (payload capacity `p = C - 1`) and a
message of `k * p` bytes, `k ≥ 1`, `fragmenter_next` emits exactly `k` chunks and is then
drained; the last one is a terminal chunk (header 255) that carries the last `p` bytes of
the message, so every emitted chunk, the last included, is `C` bytes long (the last
non-zero return value is `C`) and no chunk has an empty payload. -/
theorem exact_multiple_terminal_chunk (w C k : Nat) (data out : Mem) (f0 : fragmenter_t)
    (hC : 2 ≤ C) (hC256 : C ≤ 256) (hCw : C < 2 ^ w) (hk : 1 ≤ k)
    (hL32 : k * (C - 1) < 2 ^ 32) (n : Nat) (hn : k ≤ n) :
    (emit w C n (emit_init f0 out data (k * (C - 1)))).chunks.getLast? =
        some (255 :: (List.range (C - 1)).map (fun t => data ((k - 1) * (C - 1) + t))) ∧
      (emit w C n (emit_init f0 out data (k * (C - 1)))).chunks.length = k ∧
      (∀ c ∈ (emit w C n (emit_init f0 out data (k * (C - 1)))).chunks, c.length = C) ∧
      fragmenter_has_more (emit w C n (emit_init f0 out data (k * (C - 1)))).fragmenter
        = 0 := by
  obtain ⟨hcount, hlast, hL1⟩ := chunk_count_multiple C k hC hk
  have h := emit_all w C (k * (C - 1)) data out f0 hC hC256 hCw hL1 hL32 n
    (by rw [hcount]; exact hn)
  rw [hcount] at h
  have hterm : terminal_chunk data (k * (C - 1)) C (k - 1) =
      255 :: (List.range (C - 1)).map (fun t => data ((k - 1) * (C - 1) + t)) := by
    rw [terminal_chunk, hlast]
  rw [h.1, hterm]
  refine ⟨List.getLast?_concat _, ?_, ?_, h.2⟩
  · simp only [List.length_append, List.length_map, List.length_range, List.length_singleton]
    omega
  · intro c hc
    rw [List.mem_append] at hc
    rcases hc with hc | hc
    · obtain ⟨i, -, rfl⟩ := List.mem_map.mp hc
      exact regular_chunk_length data C i (by omega)
    · rw [List.mem_singleton] at hc
      subst hc
      simp only [List.length_cons, List.length_map, List.length_range]
      omega

/-- C12 at a concrete input: six bytes at chunk capacity 4; the last of the two chunks is
`[255, 3, 4, 5]`. -/
theorem exact_multiple_terminal_chunk_witness :
    (emit 32 4 2 (emit_init fragmenter_blank zero_mem ramp (2 * (4 - 1)))).chunks.getLast? =
      some (255 :: (List.range (4 - 1)).map (fun t => ramp ((2 - 1) * (4 - 1) + t))) ∧
    (emit 32 4 2 (emit_init fragmenter_blank zero_mem ramp (2 * (4 - 1)))).chunks.length = 2 :=
  by
  have h := exact_multiple_terminal_chunk 32 4 2 ramp zero_mem fragmenter_blank (by decide)
    (by decide) (by decide) (by decide) (by decide) 2 (by decide)
  exact ⟨h.1, h.2.1⟩

/-! ## C20: fragmentation terminates and partitions the message -/

/-- C20: for a message of `1 ≤ L < 2^32` bytes and a chunk capacity `2 ≤ C ≤ 256`
(`p = C - 1`): every call of `fragmenter_next` on a fragmenter of this message with unread
bytes returns a non-zero length and strictly advances `position`; after `fragmenter_init`
each of the first `chunk_count L C` calls finds `fragmenter_has_more` at 1 and adds one
chunk, and from then on `fragmenter_has_more` is 0.  The chunks are `chunk_count L C - 1`
regular chunks with a payload of exactly `p` bytes followed by the terminal chunk, whose
payload has `L - (chunk_count L C - 1) * p` bytes, between 1 and `p`; and the payloads,
concatenated in order, are the message. -/
theorem fragmentation_partitions (w C L : Nat) (data out : Mem) (f0 : fragmenter_t)
    (hL1 : 1 ≤ L) (hL32 : L < 2 ^ 32) (hC : 2 ≤ C) (hC256 : C ≤ 256) (hCw : C < 2 ^ w) :
    (∀ (f : fragmenter_t) (buf : Mem), f.length = L → f.position < f.length →
      f.position < (fragmenter_next w f buf C).1.position ∧
        (fragmenter_next w f buf C).2.2 ≠ 0) ∧
    (∀ n, n < chunk_count L C →
      fragmenter_has_more (emit w C n (emit_init f0 out data L)).fragmenter = 1 ∧
        (emit w C n (emit_init f0 out data L)).chunks.length = n) ∧
    (∀ n, chunk_count L C ≤ n →
      fragmenter_has_more (emit w C n (emit_init f0 out data L)).fragmenter = 0 ∧
      (emit w C n (emit_init f0 out data L)).chunks.length = chunk_count L C ∧
      (emit w C n (emit_init f0 out data L)).chunks =
        (List.range (chunk_count L C - 1)).map (regular_chunk data C) ++
          [terminal_chunk data L C (chunk_count L C - 1)] ∧
      (∀ c ∈ (emit w C n (emit_init f0 out data L)).chunks.dropLast,
        c.tail.length = C - 1) ∧
      (∀ c, (emit w C n (emit_init f0 out data L)).chunks.getLast? = some c →
        c.tail.length = L - (chunk_count L C - 1) * (C - 1)) ∧
      ((emit w C n (emit_init f0 out data L)).chunks.map List.tail).flatten =
        (List.range L).map data) ∧
    1 ≤ L - (chunk_count L C - 1) * (C - 1) ∧
    L - (chunk_count L C - 1) * (C - 1) ≤ C - 1 := by
  obtain ⟨hlt, hle, hk⟩ := chunk_count_pos L C hC hL1
  have hk1 : chunk_count L C - 1 = (L - 1) / (C - 1) := by rw [hk, Nat.add_sub_cancel]
  refine ⟨?_, ?_, ?_, by rw [hk1]; omega, by rw [hk1]; omega⟩
  · intro f buf hlen hmore
    exact fragmenter_next_advances w C f buf hC hC256 hCw (by rw [hlen]; exact hL32) hmore
  · intro n hn
    exact emit_before w C L data out f0 hC hC256 hCw hL1 hL32 n hn
  · intro n hn
    have h := emit_all w C L data out f0 hC hC256 hCw hL1 hL32 n hn
    rw [h.1]
    refine ⟨h.2, ?_, rfl, ?_, ?_, ?_⟩
    · simp only [List.length_append, List.length_map, List.length_range,
        List.length_singleton]
      omega
    · intro c hc
      rw [List.dropLast_concat] at hc
      obtain ⟨i, -, rfl⟩ := List.mem_map.mp hc
      simp [regular_chunk]
    · intro c hc
      rw [List.getLast?_concat] at hc
      cases hc
      simp [terminal_chunk]
    · exact all_payloads data L C _ (by rw [hk1]; omega)

/-- C20 at a concrete input: ten bytes at chunk capacity 4 are emitted as four chunks, the
last with one payload byte, and the payloads concatenate to the ten bytes. -/
theorem fragmentation_partitions_witness :
    (emit 32 4 4 (emit_init fragmenter_blank zero_mem ramp 10)).chunks =
      [[0, 0, 1, 2], [1, 3, 4, 5], [2, 6, 7, 8], [255, 9]] ∧
    fragmenter_has_more (emit 32 4 4 (emit_init fragmenter_blank zero_mem ramp 10)).fragmenter
      = 0 ∧
    ((emit 32 4 4 (emit_init fragmenter_blank zero_mem ramp 10)).chunks.map List.tail).flatten
      = (List.range 10).map ramp := by
  have h := (fragmentation_partitions 32 4 10 ramp zero_mem fragmenter_blank (by decide)
    (by decide) (by decide) (by decide) (by decide)).2.2.1 4 (by decide)
  refine ⟨?_, h.1, h.2.2.2.2.2⟩
  rw [h.2.2.1]
  decide

end DMFLib
